import Mathlib

/-!
Verification development for the geneheatmap repository.

The data-transformation pipeline of `ClusteredHeatmap` (the `processExcelFile`
function and the pure mapping helpers `colorScale`, `getSizeForPValue`, the
marker logic of `renderHeatmap`, and the export projection of
`downloadProcessedData`) is shallowly embedded below.

Modelling conventions:
* JavaScript numbers are modelled as rationals (`ℚ`) together with an explicit
  `nan` constructor; concrete rationals are written with `mkRat`.
* A decoded spreadsheet row (the output of `XLSX.utils.sheet_to_json`) is an
  association list from header strings to cell values; a missing key plays the
  role of JavaScript `undefined`.
* `Array.prototype.sort` (stable since ES2019) is modelled by a stable
  insertion sort; for a consistent comparator this is observationally the
  sort used by any conforming engine.  When the comparator returns `NaN` the
  ECMAScript spec treats the pair as equal (SortCompare returns +0), which the
  model reflects by making such pairs compare as "keep current order".
* `d3.scaleQuantile` is an external collaborator; its documented algorithm
  (sorted numeric domain, `R-7` interpolated quantile thresholds, right
  bisection into the colour range) is modelled directly.  Right bisection on
  the ascending threshold list is expressed as counting thresholds `≤ x`.
-/

namespace GeneHeatmap

deriving instance DecidableEq for Except

/-- A JavaScript number-or-null slot, as stored in `gene.values` / `gene.pValues`
(the result of the `parseFloat` ternary in `processExcelFile`). -/
inductive JsVal where
  | null
  | nan
  | num (q : ℚ)
deriving DecidableEq, Repr

/-- A decoded spreadsheet cell value: `undefined` models a missing key
(JavaScript `undefined`), otherwise a string or a number. -/
inductive Cell where
  | undefined
  | str (s : String)
  | nan
  | num (q : ℚ)
deriving DecidableEq, Repr

/-- One decoded row: an association list from header to cell, as produced by
`XLSX.utils.sheet_to_json` (keys in sheet column order, absent for empty
cells). -/
abbrev Row := List (String × Cell)

/-- JavaScript property access `row[key]`; a missing key yields `undefined`. -/
def getCell (row : Row) (k : String) : Cell :=
  match row.find? (fun p => p.1 == k) with
  | some p => p.2
  | none => .undefined

/-- The whitespace class used by `\s` and `String.prototype.trim` (restricted
to the ASCII whitespace appearing in spreadsheet headers). -/
def jsSpace (c : Char) : Bool :=
  c == ' ' || c == '\t' || c == '\n' || c == '\r' || c == '\x0b' || c == '\x0c'

/-- Characters matched by `.` in a JavaScript regex (no line terminators). -/
def dotOk (c : Char) : Bool :=
  !(c == '\n' || c == '\r' || c == '\u2028' || c == '\u2029')

/-- Strip a case-insensitive literal marker from the front of a character
list, as the anchored `/^<marker>/i` part of the header patterns does. -/
def stripCi : List Char → List Char → Option (List Char)
  | [], rest => some rest
  | _ :: _, [] => none
  | m :: ms, c :: cs => if c.toLower = m.toLower then stripCi ms cs else none

/-- `String.prototype.trim` on both ends. -/
def trimJs (s : String) : String :=
  String.mk (((s.data.dropWhile jsSpace).reverse.dropWhile jsSpace).reverse)

/-- Matcher for the anchored header patterns
`/^<marker>\s*\((.+)\)$/i` of `processExcelFile`: after the case-insensitive
marker and optional whitespace comes a parenthesized nonempty capture running
to the final character (the greedy `(.+)` takes everything up to the last
`)`); the capture may not contain line terminators.  Returns the raw
(untrimmed) capture. -/
def matchHeader (marker : List Char) (s : String) : Option String :=
  match stripCi marker s.data with
  | none => none
  | some rest =>
    match rest.dropWhile jsSpace with
    | '(' :: rest2 =>
      match rest2.getLast? with
      | some ')' =>
        let inner := rest2.dropLast
        if !inner.isEmpty && inner.all dotOk then some (String.mk inner) else none
      | _ => none
    | _ => none

/-- Substring test on character lists (JavaScript `String.prototype.includes`). -/
def containsSub (pat : List Char) : List Char → Bool
  | [] => pat.isEmpty
  | c :: t => pat.isPrefixOf (c :: t) || containsSub pat t

/-- The `Log2FC` marker of `comparisonPattern`. -/
def log2fcMarker : List Char := "Log2FC".data

/-- The `P value` marker of `pValuePattern`. -/
def pValueMarker : List Char := "P value".data

def digitVal (c : Char) : Nat := c.toNat - 48

def digitsToNat (l : List Char) : Nat := l.foldl (fun a c => a * 10 + digitVal c) 0

/-- JavaScript `parseFloat` on a string: skip leading whitespace, optional
sign, decimal digits with an optional fractional part; no parsable prefix
yields `NaN`.  (Exponent suffixes and `Infinity` are not modelled; they do
not occur on this pipeline's data paths.)  The numeric value
`int . frac` is built directly as `mkRat (int*10^k + frac) (10^k)`. -/
def parseFloatJs (s : String) : JsVal :=
  let cs := s.data.dropWhile jsSpace
  let signAndRest : Bool × List Char :=
    match cs with
    | '-' :: r => (true, r)
    | '+' :: r => (false, r)
    | _ => (false, cs)
  let neg := signAndRest.1
  let cs1 := signAndRest.2
  let ip := cs1.takeWhile Char.isDigit
  let cs2 := cs1.dropWhile Char.isDigit
  let fp :=
    match cs2 with
    | '.' :: r => r.takeWhile Char.isDigit
    | _ => []
  if ip.isEmpty && fp.isEmpty then .nan
  else
    let m : Int := (digitsToNat ip : Int) * 10 ^ fp.length + (digitsToNat fp : Int)
    .num (mkRat (if neg then -m else m) (10 ^ fp.length))

/-- The cell-to-number step of `processExcelFile`:
`val !== undefined && val !== null && val !== '' ? parseFloat(val) : null`.
`parseFloat` of a number is the number itself (number-to-string-to-number
round-trips exactly), and `parseFloat(NaN)` is `NaN`. -/
def parseCell : Cell → JsVal
  | .undefined => .null
  | .str s => if s = "" then .null else parseFloatJs s
  | .nan => .nan
  | .num q => .num q

/-- JavaScript truthiness of a cell value
(`undefined`, `''`, `NaN` and `0` are falsy). -/
def truthy : Cell → Bool
  | .undefined => false
  | .str s => !(s == "")
  | .nan => false
  | .num q => !(q == 0)

/-- JavaScript `a || b`. -/
def jsOr (a b : Cell) : Cell := if truthy a then a else b

/-- `gene['Gene ID'] || gene['GeneID'] || gene['gene_id']`. -/
def extractGeneId (row : Row) : Cell :=
  jsOr (getCell row "Gene ID") (jsOr (getCell row "GeneID") (getCell row "gene_id"))

/-- `if (typeof geneId === 'string') geneId = geneId.trim()`. -/
def normId : Cell → Cell
  | .str s => .str (trimJs s)
  | c => c

/-- A row survives the `if (!geneId)` skip of `processExcelFile` exactly when
its normalized identifier is truthy. -/
def keepRow (row : Row) : Bool := truthy (normId (extractGeneId row))

/-- A typed gene record, as pushed onto `geneData`. -/
structure Gene where
  id : Cell
  category : Cell
  values : List JsVal
  pValues : List JsVal
deriving DecidableEq, Repr

/-- `Object.keys(rawData[0] || {})`. -/
def headersOf (rawData : List Row) : List String := (rawData.headD []).map (fun p => p.1)

/-- `headers.filter(h => comparisonPattern.test(h))`. -/
def detectComparisons (headers : List String) : List String :=
  headers.filter (fun h => (matchHeader log2fcMarker h).isSome)

/-- `comparisons.map(h => { const match = h.match(comparisonPattern);
return match ? match[1].trim() : h; })`. -/
def shortNamesOf (headers : List String) : List String :=
  (detectComparisons headers).map (fun h =>
    match matchHeader log2fcMarker h with
    | some m => trimJs m
    | none => h)

/-- `headers.filter(h => pValuePattern.test(h))`. -/
def detectPValueCols (headers : List String) : List String :=
  headers.filter (fun h => (matchHeader pValueMarker h).isSome)

/-- `headers.find(h => h.toLowerCase().includes('category'))`. -/
def categoryColOf (headers : List String) : Option String :=
  headers.find? (fun h => containsSub "category".data (h.data.map Char.toLower))

/-- Build one gene record from a raw row, as the `rawData.forEach` body does.
(The `hasValidValue` check in the source only logs a warning and does not
affect the produced record.) -/
def mkGene (comparisons pValueCols : List String) (categoryCol : Option String)
    (row : Row) : Gene :=
  { id := normId (extractGeneId row)
    category :=
      match categoryCol with
      | none => .str "Uncategorized"
      | some cc => let v := getCell row cc; if truthy v then v else .str "Uncategorized"
    values := comparisons.map (fun c => parseCell (getCell row c))
    pValues := pValueCols.map (fun c => parseCell (getCell row c)) }

/-- The validated gene list: rows whose identifier is falsy after trimming are
skipped, the rest become gene records in input order. -/
def geneDataOf (rawData : List Row) : List Gene :=
  let headers := headersOf rawData
  rawData.filterMap (fun row =>
    if keepRow row then
      some (mkGene (detectComparisons headers) (detectPValueCols headers)
        (categoryColOf headers) row)
    else none)

/-- Stable insertion of `x` into a sorted list: `x` goes in front of the first
element it compares `le` to, so earlier input elements stay in front of later
equal ones. -/
def orderedInsertBy {α : Type} (le : α → α → Bool) (x : α) : List α → List α
  | [] => [x]
  | y :: ys => if le x y then x :: y :: ys else y :: orderedInsertBy le x ys

/-- Stable insertion sort, the model of `Array.prototype.sort(comparator)`. -/
def insertionSortBy {α : Type} (le : α → α → Bool) : List α → List α
  | [] => []
  | x :: xs => orderedInsertBy le x (insertionSortBy le xs)

/-- The value `a.values[0]` is used in, coerced as JavaScript arithmetic does:
a missing entry (`undefined`) is `NaN`, `null` is `0`. -/
def geneKey (g : Gene) : JsVal :=
  match g.values.head? with
  | none => .nan
  | some .null => .num 0
  | some v => v

/-- The comparator `(a, b) => a.values[0] - b.values[0]` turned into a
keep-in-order test: the pair is kept in order when the difference is `≤ 0`,
and a `NaN` difference counts as `0` (ECMAScript SortCompare). -/
def geneLe (a b : Gene) : Bool :=
  match geneKey a, geneKey b with
  | .num x, .num y => decide (x ≤ y)
  | _, _ => true

/-- `categoryGenes.sort((a, b) => a.values[0] - b.values[0])`. -/
def sortGenes : List Gene → List Gene := insertionSortBy geneLe

/-- The scan behind `[...new Set(list)]`: `seen` is the set built so far,
elements already seen are skipped. -/
def insertionDedupAux {α : Type} [DecidableEq α] (seen : List α) : List α → List α
  | [] => []
  | a :: l =>
    if a ∈ seen then insertionDedupAux seen l
    else a :: insertionDedupAux (a :: seen) l

/-- `[...new Set(list)]`: distinct elements in first-occurrence order. -/
def insertionDedup {α : Type} [DecidableEq α] (l : List α) : List α :=
  insertionDedupAux [] l

/-- JavaScript strict equality on cell values, as
`geneData.filter(gene => gene.category === category)` compares: type
sensitive, and false on `NaN` against anything (itself included). -/
def strictEq (a b : Cell) : Bool :=
  match a, b with
  | .nan, _ => false
  | _, .nan => false
  | a, b => a == b

def digitChar : Nat → Char
  | 0 => '0' | 1 => '1' | 2 => '2' | 3 => '3' | 4 => '4'
  | 5 => '5' | 6 => '6' | 7 => '7' | 8 => '8' | _ => '9'

def natDigits : Nat → Nat → List Char
  | 0, _ => []
  | fuel + 1, n =>
    if n < 10 then [digitChar n] else natDigits fuel (n / 10) ++ [digitChar (n % 10)]

def natToStr (n : Nat) : String := String.mk (natDigits (n + 1) n)

def factorCountAux (p : Nat) : Nat → Nat → Nat
  | 0, _ => 0
  | fuel + 1, n => if 0 < n ∧ n % p = 0 then 1 + factorCountAux p fuel (n / p) else 0

/-- Multiplicity of the prime `p` in `n`. -/
def factorCount (p n : Nat) : Nat := factorCountAux p n n

def fracDigits : Nat → Nat → List Char
  | 0, _ => []
  | k + 1, fp => fracDigits k (fp / 10) ++ [digitChar (fp % 10)]

/-- JavaScript `String(x)` on a number, under the model's exact-rational
reading of the pipeline's numbers: sign, integer digits, and — when the
denominator divides a power of ten — the exact fractional digits with no
trailing zeros, which is what JS's shortest round-trip printing produces for
the decimal values the pipeline parses.  (Binary floats are dyadic
rationals, so a non-terminating decimal expansion is unreachable through the
pipeline's number sources; such rationals, like the exponential notation JS
switches to beyond 1e21, get a fraction fallback no claim depends on.) -/
def numToString (q : ℚ) : String :=
  let n := q.num.natAbs
  let d := q.den
  let a := factorCount 2 d
  let b := factorCount 5 d
  let k := max a b
  let core :=
    if d = 2 ^ a * 5 ^ b then
      let m := n * 10 ^ k / d
      let fr := ((fracDigits k (m % 10 ^ k)).reverse.dropWhile (fun c => c == '0')).reverse
      if fr.isEmpty then natToStr (m / 10 ^ k)
      else natToStr (m / 10 ^ k) ++ "." ++ String.mk fr
    else natToStr n ++ "/" ++ natToStr d
  if q < 0 then "-" ++ core else core

/-- The string a cell value is coerced to when used as a JavaScript object
key (`ToPropertyKey`), as `groupedByCategory[category]` does. -/
def jsKey : Cell → String
  | .undefined => "undefined"
  | .str s => s
  | .nan => "NaN"
  | .num q => numToString q

/-- Assignment `obj[k] = v` on a plain JS object, modelled as an association
list: an existing binding for `k` is overwritten, otherwise a binding is
appended. -/
def objSet : List (String × List Gene) → String → List Gene → List (String × List Gene)
  | [], k, v => [(k, v)]
  | (k2, v2) :: rest, k, v =>
    if k2 == k then (k, v) :: rest else (k2, v2) :: objSet rest k v

/-- Lookup `obj[k]`: `none` models `undefined`, the only falsy outcome (an
array, even an empty one, is truthy). -/
def objGet (obj : List (String × List Gene)) (k : String) : Option (List Gene) :=
  match obj.find? (fun p => p.1 == k) with
  | some p => some p.2
  | none => none

/-- The `categories.forEach` loop that fills `groupedByCategory`: for each
raw category value, the strict-equality filter of the gene list is stored
(when nonempty) under the category's string-coerced key — so distinct
categories with equal string form overwrite one another's group. -/
def buildGroups (genes : List Gene) : List Cell → List (String × List Gene) →
    List (String × List Gene)
  | [], obj => obj
  | c :: rest, obj =>
    let inCat := genes.filter (fun g => strictEq g.category c)
    buildGroups genes rest (if inCat.isEmpty then obj else objSet obj (jsKey c) inCat)

/-- The second `categories.forEach` loop: for each raw category value, look
the group up by string key (returning early on a missing key), sort it in
place — the model stores the sorted array back, as the mutation does — and
append its contents to the output.  A key shared by several raw categories
is looked up, re-sorted and appended once per category. -/
def sortLoop : List Cell → List (String × List Gene) → List Gene
  | [], _ => []
  | c :: rest, obj =>
    match objGet obj (jsKey c) with
    | none => sortLoop rest obj
    | some arr => sortGenes arr ++ sortLoop rest (objSet obj (jsKey c) (sortGenes arr))

/-- Group the validated genes by category, sort each group by the first
comparison value, and concatenate (`groupedByCategory` + the two
`categories.forEach` loops).  The category list is the type-sensitive `Set`
of the raw category values, but the grouping object is keyed by their string
coercions: categories that stringify alike collide there. -/
def sortedGeneData (genes : List Gene) : List Gene :=
  let cats := insertionDedup (genes.map (fun g => g.category))
  sortLoop cats (buildGroups genes cats [])

/-- The grouping stage specialised to the collision-free case: groups keyed
by the raw category value.  `sortedGeneData_eq_noCollision` below proves the
source's string-keyed grouping coincides with this exactly when distinct
categories keep distinct string forms and no category is `NaN`; the
permutation and regrouping lemmas are stated over this form. -/
def groupSortNoCollision (genes : List Gene) : List Gene :=
  (insertionDedup (genes.map (fun g => g.category))).flatMap (fun c =>
    let genesInCategory := genes.filter (fun g => g.category == c)
    if genesInCategory.isEmpty then [] else sortGenes genesInCategory)

/-- One entry of `categoryGroups`. -/
structure CategorySegment where
  category : Cell
  startIndex : Nat
  endIndex : Nat
  count : Nat
deriving DecidableEq, Repr

/-- The scanning loop that builds `categoryGroups`: `idx` is the index of the
next gene, `cur` the category of the currently open segment, `start` its
start index.  Mirrors the `sortedGeneData.forEach` plus the trailing
"add the last group" push. -/
def catGroupsGo : List Cell → Nat → Cell → Nat → List CategorySegment
  | [], idx, cur, start => [⟨cur, start, idx - 1, idx - start⟩]
  | c :: rest, idx, cur, start =>
    if c = cur then catGroupsGo rest (idx + 1) cur start
    else ⟨cur, start, idx - 1, idx - start⟩ :: catGroupsGo rest (idx + 1) c idx

/-- `categoryGroups` built from the category sequence of the sorted genes.
With no genes, `currentCategory` stays `null` and no segment is pushed. -/
def categoryGroupsOf : List Cell → List CategorySegment
  | [] => []
  | c :: rest => catGroupsGo rest 1 c 0

/-- The aggregate handed to `setData`. -/
structure Dataset where
  genes : List Gene
  comparisons : List String
  comparisonColumns : List String
  pValueColumns : List String
  categoryGroups : List CategorySegment
  categories : List Cell
deriving DecidableEq, Repr

/-- The dataset built in the success path of `processExcelFile`. -/
def datasetOf (rawData : List Row) : Dataset :=
  let headers := headersOf rawData
  let sorted := sortedGeneData (geneDataOf rawData)
  { genes := sorted
    comparisons := shortNamesOf headers
    comparisonColumns := detectComparisons headers
    pValueColumns := detectPValueCols headers
    categoryGroups := categoryGroupsOf (sorted.map (fun g => g.category))
    categories := insertionDedup (sorted.map (fun g => g.category)) }

/-- The failure modes of `processExcelFile`, in the order the source throws
them: `noData` is "No data found in the sheet", `noHeaders` is "No headers
found in the Excel file", `schemaError` is "No comparison columns found…",
`dataError` is "No valid gene data found in the file". -/
inductive PipeError where
  | noData
  | noHeaders
  | schemaError
  | dataError
deriving DecidableEq, Repr

/-- The data-transformation pipeline of `processExcelFile`, from the decoded
row list to either an error or the dataset handed to `setData`.  (The
`missingGenes` check in the source is dead code: nothing is ever pushed onto
`missingGenes`.) -/
def processExcelFile (rawData : List Row) : Except PipeError Dataset :=
  if rawData.length = 0 then .error .noData
  else if (headersOf rawData).length = 0 then .error .noHeaders
  else if (detectComparisons (headersOf rawData)).length = 0 then .error .schemaError
  else if (geneDataOf rawData).length = 0 then .error .dataError
  else .ok (datasetOf rawData)

/-- The `ToNumber` coercion JavaScript applies inside the `<` and `>=`
comparisons of the marker logic: a missing entry (`undefined`) is `NaN` and
`null` is `0`. -/
def toNumber : Option JsVal → JsVal
  | none => .nan
  | some .null => .num 0
  | some .nan => .nan
  | some (.num q) => .num q

/-- JavaScript `p < c` (false whenever `ToNumber(p)` is `NaN`). -/
def numLt (a : Option JsVal) (c : ℚ) : Bool :=
  match toNumber a with
  | .num q => decide (q < c)
  | _ => false

/-- JavaScript `p >= c` (false whenever `ToNumber(p)` is `NaN`). -/
def numGe (a : Option JsVal) (c : ℚ) : Bool :=
  match toNumber a with
  | .num q => decide (c ≤ q)
  | _ => false

/-- `getSizeForPValue`: 0 for `pValue >= 0.05`, 5 for `pValue < 0.01`,
otherwise 3. -/
def getSizeForPValue (p : Option JsVal) : ℚ :=
  if numGe p (mkRat 1 20) then 0
  else if numLt p (mkRat 1 100) then 5
  else 3

/-- What the cell rendering displays for one p-value: whether a circle is
drawn, its radius, and whether it is black (`isSignificant`) or grey
(`isMarginal`). -/
structure Marker where
  visible : Bool
  radius : ℚ
  black : Bool
deriving DecidableEq, Repr

/-- The significance-marker logic of `renderHeatmap`:
`isSignificant = pValue < 0.05`, `isMarginal = pValue >= 0.05 && pValue < 0.1`,
radius `getSizeForPValue(pValue)` when significant, else 2 when marginal,
else 0; the circle is rendered iff significant or marginal. -/
def markerFor (p : Option JsVal) : Marker :=
  let isSignificant := numLt p (mkRat 1 20)
  let isMarginal := numGe p (mkRat 1 20) && numLt p (mkRat 1 10)
  { visible := isSignificant || isMarginal
    radius := if isSignificant then getSizeForPValue p else if isMarginal then 2 else 0
    black := isSignificant }

/-- The colour delivered for one heatmap cell.  Calls into the external d3
interpolators are recorded symbolically: `reds i` is `d3.interpolateReds(i)`,
`redsLog a` is `d3.interpolateReds(min(log2(a+1)/3, 1))` (the log-mode
transform applied to a value of absolute magnitude `a`), `scheme s` is the
literal colour string `s` from a d3 scheme, `bluesNaN` is
`d3.interpolateBlues(NaN)`, and `undefinedFill` is the quantile scale's
`unknown` output. -/
inductive ColorOut where
  | neutral
  | scheme (s : String)
  | reds (intensity : ℚ)
  | blues (intensity : ℚ)
  | redsLog (absValue : ℚ)
  | bluesLog (absValue : ℚ)
  | bluesNaN
  | undefinedFill
deriving DecidableEq, Repr

/-- `d3.schemeRdBu[7]`, the 7-step diverging red-blue scheme. -/
def rdBu7 : List String :=
  ["#b2182b", "#ef8a62", "#fddbc7", "#f7f7f7", "#d1e5f0", "#67a9cf", "#2166ac"]

/-- `d3.schemeRdBu[7].reverse()` as the quantile range.  (`reverse()`
mutates the shared scheme array in place, so repeated calls alternate its
orientation; the model fixes the first call's orientation, which does not
affect any property proved below.) -/
def rdBu7Rev : List String := rdBu7.reverse

/-- The numeric entries of `data.genes.flatMap(g => g.values)`:
`d3.scaleQuantile().domain(...)` drops `null` and `NaN` entries. -/
def nonNullValuesOf (genes : List Gene) : List ℚ :=
  (genes.flatMap (fun g => g.values)).filterMap (fun v =>
    match v with
    | .num q => some q
    | _ => none)

def ratLe (a b : ℚ) : Bool := decide (a ≤ b)

/-- The quantile scale's domain: the numeric values sorted ascending. -/
def quantDomain (genes : List Gene) : List ℚ :=
  insertionSortBy ratLe (nonNullValuesOf genes)

/-- d3's `quantileSorted(values, p)`: `values[0]` when `p <= 0` or fewer than
two values, the last value when `p >= 1`, otherwise linear interpolation at
index `(n-1)*p`. -/
def quantileSorted (values : List ℚ) (p : ℚ) : Option ℚ :=
  match values with
  | [] => none
  | v0 :: rest =>
    if p ≤ 0 ∨ (v0 :: rest).length < 2 then some v0
    else if 1 ≤ p then some ((v0 :: rest).getLast (by simp))
    else
      let n : Nat := (v0 :: rest).length
      let i : ℚ := ((n - 1 : Nat) : ℚ) * p
      let i0 : Nat := (⌊i⌋).toNat
      let val0 := (v0 :: rest).getD i0 0
      let val1 := (v0 :: rest).getD (i0 + 1) 0
      some (val0 + (val1 - val0) * (i - (i0 : ℚ)))

/-- The six thresholds of a 7-bin `d3.scaleQuantile`:
`quantileSorted(domain, i/7)` for `i = 1..6`.  (Only evaluated on a nonempty
domain; `quantileColor` handles the empty domain separately.) -/
def quantThresholds (domain : List ℚ) : List ℚ :=
  (List.range 6).map (fun k => (quantileSorted domain (mkRat (Int.ofNat (k + 1)) 7)).getD 0)

/-- `d3.bisect` (right bisection) on the ascending threshold list: the number
of thresholds `≤ x`. -/
def bisectCount (thresholds : List ℚ) (x : ℚ) : Nat :=
  thresholds.countP (fun t => decide (t ≤ x))

/-- `scale(value)` for the quantile scale over a numeric input.  On an empty
domain every threshold is `undefined` and d3's bisection lands at the end of
the range. -/
def quantileColor (genes : List Gene) (q : ℚ) : ColorOut :=
  match quantDomain genes with
  | [] => .scheme (rdBu7Rev.getD 6 "")
  | v0 :: rest =>
    .scheme (rdBu7Rev.getD (bisectCount (quantThresholds (v0 :: rest)) q) "")

/-- The `colorScaleType` state values. -/
inductive ScaleMode where
  | linear
  | log
  | quantile
deriving DecidableEq, Repr

/-- The `colorScale` closure: `null`/`undefined` yields the fixed neutral
colour `#f9f9f9`; quantile mode delegates to the dataset-wide quantile scale;
otherwise the (possibly log-transformed) value picks a red or blue ramp with
intensity `min(|v|/3, 1)`.  In log mode the transformed value has the sign of
the input and magnitude `log2(|value|+1)`, so the branch on `v > 0` is a
branch on `0 < value`. -/
def colorScale (mode : ScaleMode) (genes : List Gene) (value : JsVal) : ColorOut :=
  match value with
  | .null => .neutral
  | .nan =>
    match mode with
    | .quantile => .undefinedFill
    | _ => .bluesNaN
  | .num q =>
    match mode with
    | .quantile => quantileColor genes q
    | .log => if 0 < q then .redsLog q else .bluesLog (-q)
    | .linear => if 0 < q then .reds (min (|q| / 3) 1) else .blues (min (|q| / 3) 1)

/-- The null placeholder of `downloadProcessedData`:
`v !== undefined && v !== null ? v : "N/A"`. -/
def exportCell : JsVal → Cell
  | .null => .str "N/A"
  | .nan => .nan
  | .num q => .num q

/-- One row of the export projection of `downloadProcessedData`, with the
column order fixed by the explicit `header` array handed to `json_to_sheet`:
`Gene ID`, `Category`, all fold-change columns, then all p-value columns.
Indexing `log2fc[i]` over the comparison list is the zip of the two lists
(an out-of-range index yields `undefined`, which `json_to_sheet` drops, i.e.
no cell at all). -/
def exportRow (comparisons : List String) (g : Gene) : Row :=
  [("Gene ID", g.id), ("Category", g.category)]
    ++ (comparisons.zip (g.values.map exportCell)).map
        (fun p => ("Log2FC (" ++ p.1 ++ ")", p.2))
    ++ (comparisons.zip (g.pValues.map exportCell)).map
        (fun p => ("P-value (" ++ p.1 ++ ")", p.2))

/-- The full export projection: one row per gene, in dataset order. -/
def exportRows (d : Dataset) : List Row := d.genes.map (exportRow d.comparisons)

/-! ## Lemmas about the stable sort -/

theorem orderedInsertBy_perm {α : Type} (le : α → α → Bool) (x : α) (l : List α) :
    (orderedInsertBy le x l).Perm (x :: l) := by
  induction l with
  | nil => exact List.Perm.refl _
  | cons y ys ih =>
    simp only [orderedInsertBy]
    split
    · exact List.Perm.refl _
    · exact ((ih.cons y).trans (List.Perm.swap x y ys))

theorem insertionSortBy_perm {α : Type} (le : α → α → Bool) (l : List α) :
    (insertionSortBy le l).Perm l := by
  induction l with
  | nil => exact List.Perm.refl _
  | cons x xs ih =>
    exact (orderedInsertBy_perm le x (insertionSortBy le xs)).trans (ih.cons x)

theorem mem_orderedInsertBy {α : Type} (le : α → α → Bool) (x : α) (l : List α) (a : α) :
    a ∈ orderedInsertBy le x l ↔ a = x ∨ a ∈ l := by
  constructor
  · intro h
    have := (orderedInsertBy_perm le x l).mem_iff.mp h
    simpa using this
  · intro h
    exact (orderedInsertBy_perm le x l).mem_iff.mpr (by simpa using h)

theorem insertionSortBy_of_pairwise {α : Type} {le : α → α → Bool} {l : List α}
    (h : l.Pairwise (fun a b => le a b = true)) : insertionSortBy le l = l := by
  induction l with
  | nil => rfl
  | cons x xs ih =>
    have hx : ∀ y ∈ xs, le x y = true := (List.pairwise_cons.mp h).1
    have hxs := ih (List.pairwise_cons.mp h).2
    simp only [insertionSortBy, hxs]
    cases xs with
    | nil => rfl
    | cons y ys =>
      simp only [orderedInsertBy, hx y (by simp)]
      simp

theorem pairwise_orderedInsertBy {α : Type} {le : α → α → Bool} {x : α} {l : List α}
    (hl : l.Pairwise (fun a b => le a b = true))
    (htot : ∀ y ∈ l, le x y = true ∨ le y x = true)
    (htr : ∀ y ∈ l, ∀ z ∈ l, le x y = true → le y z = true → le x z = true) :
    (orderedInsertBy le x l).Pairwise (fun a b => le a b = true) := by
  induction l with
  | nil => simp [orderedInsertBy]
  | cons y ys ih =>
    simp only [orderedInsertBy]
    rcases List.pairwise_cons.mp hl with ⟨hy, hys⟩
    split
    · rename_i hxy
      refine List.pairwise_cons.mpr ⟨?_, hl⟩
      intro z hz
      rcases List.mem_cons.mp hz with rfl | hz
      · exact hxy
      · exact htr y (by simp) z (by simp [hz]) hxy (hy z hz)
    · rename_i hxy
      have hyx : le y x = true := by
        rcases htot y (by simp) with h | h
        · exact absurd h hxy
        · exact h
      refine List.pairwise_cons.mpr ⟨?_, ?_⟩
      · intro z hz
        rcases (mem_orderedInsertBy le x ys z).mp hz with hz | hz
        · subst hz; exact hyx
        · exact hy z hz
      · exact ih hys (fun a ha => htot a (by simp [ha]))
          (fun a ha b hb => htr a (by simp [ha]) b (by simp [hb]))

theorem pairwise_insertionSortBy {α : Type} {le : α → α → Bool} (K : α → Prop)
    (total : ∀ a b, K a → K b → le a b = true ∨ le b a = true)
    (trans : ∀ a b c, K a → K b → K c → le a b = true → le b c = true → le a c = true)
    {l : List α} (hK : ∀ a ∈ l, K a) :
    (insertionSortBy le l).Pairwise (fun a b => le a b = true) := by
  induction l with
  | nil => simp [insertionSortBy]
  | cons x xs ih =>
    have hmem : ∀ a ∈ insertionSortBy le xs, K a := fun a ha =>
      hK a (by simp [(insertionSortBy_perm le xs).mem_iff.mp ha])
    refine pairwise_orderedInsertBy (ih (fun a ha => hK a (by simp [ha]))) ?_ ?_
    · intro y hy
      exact total x y (hK x (by simp)) (hmem y hy)
    · intro y hy z hz
      exact trans x y z (hK x (by simp)) (hmem y hy) (hmem z hz)

/-! ## Lemmas about `insertionDedup` -/

theorem mem_insertionDedupAux {α : Type} [DecidableEq α] (l : List α) :
    ∀ (seen : List α) (a : α), a ∈ insertionDedupAux seen l ↔ a ∈ l ∧ a ∉ seen := by
  induction l with
  | nil => simp [insertionDedupAux]
  | cons b t ih =>
    intro seen a
    simp only [insertionDedupAux]
    split
    · rename_i hb
      rw [ih]
      constructor
      · rintro ⟨h1, h2⟩; exact ⟨by simp [h1], h2⟩
      · rintro ⟨h1, h2⟩
        rcases List.mem_cons.mp h1 with rfl | h1
        · exact absurd hb h2
        · exact ⟨h1, h2⟩
    · rename_i hb
      simp only [List.mem_cons, ih]
      constructor
      · rintro (rfl | ⟨h1, h2⟩)
        · exact ⟨by simp, hb⟩
        · exact ⟨by simp [h1], fun hc => h2 (by simp [hc])⟩
      · rintro ⟨h1, h2⟩
        rcases h1 with rfl | h1
        · exact Or.inl rfl
        · by_cases hab : a = b
          · exact Or.inl hab
          · exact Or.inr ⟨h1, by simp [hab, h2]⟩

theorem mem_insertionDedup {α : Type} [DecidableEq α] (l : List α) (a : α) :
    a ∈ insertionDedup l ↔ a ∈ l := by
  simp [insertionDedup, mem_insertionDedupAux]

theorem nodup_insertionDedupAux {α : Type} [DecidableEq α] (l : List α) :
    ∀ seen : List α, (insertionDedupAux seen l).Nodup := by
  induction l with
  | nil => simp [insertionDedupAux]
  | cons b t ih =>
    intro seen
    simp only [insertionDedupAux]
    split
    · exact ih seen
    · refine List.nodup_cons.mpr ⟨?_, ih (b :: seen)⟩
      intro hb
      exact ((mem_insertionDedupAux t (b :: seen) b).mp hb).2 (by simp)

theorem nodup_insertionDedup {α : Type} [DecidableEq α] (l : List α) :
    (insertionDedup l).Nodup := nodup_insertionDedupAux l []

/-! ## Grouping by category is a permutation -/

theorem flatMap_congr_mem {α β : Type} {l : List α} {f g : α → List β}
    (h : ∀ a ∈ l, f a = g a) : l.flatMap f = l.flatMap g := by
  induction l with
  | nil => rfl
  | cons a t ih =>
    simp only [List.flatMap_cons, h a (by simp), ih (fun b hb => h b (by simp [hb]))]

theorem flatMap_perm_congr {α β : Type} {l : List α} {f g : α → List β}
    (h : ∀ a ∈ l, (f a).Perm (g a)) : (l.flatMap f).Perm (l.flatMap g) := by
  induction l with
  | nil => exact List.Perm.refl _
  | cons a t ih =>
    simp only [List.flatMap_cons]
    exact (h a (by simp)).append (ih (fun b hb => h b (by simp [hb])))

theorem flatMap_filter_perm {α β : Type} [DecidableEq β] (key : α → β) :
    ∀ (cs : List β) (l : List α), cs.Nodup → (∀ x ∈ l, key x ∈ cs) →
      (cs.flatMap (fun c => l.filter (fun x => key x == c))).Perm l := by
  intro cs
  induction cs with
  | nil =>
    intro l _ hcover
    cases l with
    | nil => exact List.Perm.refl _
    | cons x t => exact absurd (hcover x (by simp)) (by simp)
  | cons c cs ih =>
    intro l hnd hcover
    simp only [List.flatMap_cons]
    have hstep :
        (cs.flatMap (fun c2 => l.filter (fun x => key x == c2))).Perm
          (l.filter (fun x => !(key x == c))) := by
      have hrw : ∀ c2 ∈ cs, l.filter (fun x => key x == c2) =
          (l.filter (fun x => !(key x == c))).filter (fun x => key x == c2) := by
        intro c2 hc2
        rw [List.filter_filter]
        refine (List.filter_congr ?_).symm
        intro x _
        by_cases hx : key x = c2
        · have : c2 ≠ c := by
            rintro rfl
            exact (List.nodup_cons.mp hnd).1 hc2
          simp [hx, this]
        · simp [hx]
      rw [flatMap_congr_mem hrw]
      refine ih (l.filter (fun x => !(key x == c))) (List.nodup_cons.mp hnd).2 ?_
      intro x hx
      rcases List.mem_filter.mp hx with ⟨hxl, hxc⟩
      rcases List.mem_cons.mp (hcover x hxl) with h | h
      · simp [h] at hxc
      · exact h
    exact ((List.Perm.refl _).append hstep).trans (List.filter_append_perm _ l)

theorem groupSort_perm (genes : List Gene) : (groupSortNoCollision genes).Perm genes := by
  unfold groupSortNoCollision
  have h1 : ((insertionDedup (genes.map (fun g => g.category))).flatMap (fun c =>
      let genesInCategory := genes.filter (fun g => g.category == c)
      if genesInCategory.isEmpty then [] else sortGenes genesInCategory)).Perm
      ((insertionDedup (genes.map (fun g => g.category))).flatMap (fun c =>
        genes.filter (fun g => g.category == c))) := by
    refine flatMap_perm_congr ?_
    intro c _
    simp only []
    split
    · rename_i he
      rw [List.isEmpty_iff.mp he]
    · exact insertionSortBy_perm _ _
  refine h1.trans ?_
  refine flatMap_filter_perm (fun g => g.category) _ genes (nodup_insertionDedup _) ?_
  intro g hg
  rw [mem_insertionDedup]
  exact List.mem_map_of_mem _ hg

/-! ## The string-keyed grouping coincides with the collision-free form -/

theorem find?_cons_false {α : Type} (p : α → Bool) (a : α) (l : List α)
    (h : p a = false) : (a :: l).find? p = l.find? p := by
  simp [List.find?, h]

theorem find?_cons_true {α : Type} (p : α → Bool) (a : α) (l : List α)
    (h : p a = true) : (a :: l).find? p = some a := by
  simp [List.find?, h]

theorem strictEq_self_of_truthy {c : Cell} (h : truthy c = true) :
    strictEq c c = true := by
  cases c <;> simp_all [strictEq, truthy]

theorem ne_nan_of_strictEq_self {c : Cell} (h : strictEq c c = true) :
    c ≠ Cell.nan := by
  rintro rfl
  exact absurd h (by decide)

theorem strictEq_eq_beq {a b : Cell} (ha : a ≠ Cell.nan) (hb : b ≠ Cell.nan) :
    strictEq a b = (a == b) := by
  cases a <;> cases b <;> first | rfl | simp_all [strictEq]

theorem objGet_cons (k2 : String) (v2 : List Gene) (rest : List (String × List Gene))
    (k : String) :
    objGet ((k2, v2) :: rest) k =
      if (k2 == k) = true then some v2 else objGet rest k := by
  by_cases h : (k2 == k) = true
  · rw [if_pos h]
    unfold objGet
    rw [find?_cons_true (fun p => p.1 == k) (k2, v2) rest h]
  · rw [if_neg h]
    have h2 : (k2 == k) = false := by rwa [Bool.not_eq_true] at h
    unfold objGet
    rw [find?_cons_false (fun p => p.1 == k) (k2, v2) rest h2]

theorem objGet_objSet_self :
    ∀ (obj : List (String × List Gene)) (k : String) (v : List Gene),
      objGet (objSet obj k v) k = some v := by
  intro obj
  induction obj with
  | nil =>
    intro k v
    show objGet [(k, v)] k = some v
    rw [objGet_cons, if_pos (by simp)]
  | cons p rest ih =>
    intro k v
    obtain ⟨k2, v2⟩ := p
    show objGet (if (k2 == k) = true then (k, v) :: rest
      else (k2, v2) :: objSet rest k v) k = some v
    by_cases h : (k2 == k) = true
    · rw [if_pos h, objGet_cons, if_pos (by simp)]
    · rw [if_neg h, objGet_cons, if_neg h]
      exact ih k v

theorem objGet_objSet_ne :
    ∀ (obj : List (String × List Gene)) (k : String) (v : List Gene) (k3 : String),
      (k == k3) = false → objGet (objSet obj k v) k3 = objGet obj k3 := by
  intro obj
  induction obj with
  | nil =>
    intro k v k3 h
    show objGet [(k, v)] k3 = objGet [] k3
    rw [objGet_cons, if_neg (by simp [h])]
  | cons p rest ih =>
    intro k v k3 h
    obtain ⟨k2, v2⟩ := p
    show objGet (if (k2 == k) = true then (k, v) :: rest
      else (k2, v2) :: objSet rest k v) k3 = objGet ((k2, v2) :: rest) k3
    by_cases hk : (k2 == k) = true
    · have hk2 : k2 = k := by simpa using hk
      subst hk2
      rw [if_pos (by simp), objGet_cons, objGet_cons, if_neg (by simp [h]),
        if_neg (by simp [h])]
    · rw [if_neg hk, objGet_cons, objGet_cons]
      by_cases h23 : (k2 == k3) = true
      · rw [if_pos h23, if_pos h23]
      · rw [if_neg h23, if_neg h23]
        exact ih k v k3 h

theorem buildGroups_cons (genes : List Gene) (c : Cell) (rest : List Cell)
    (obj : List (String × List Gene)) :
    buildGroups genes (c :: rest) obj = buildGroups genes rest
      (if (genes.filter (fun g => strictEq g.category c)).isEmpty then obj
        else objSet obj (jsKey c) (genes.filter (fun g => strictEq g.category c))) := rfl

theorem sortLoop_cons_some {c : Cell} {rest : List Cell}
    {obj : List (String × List Gene)} {arr : List Gene}
    (h : objGet obj (jsKey c) = some arr) :
    sortLoop (c :: rest) obj =
      sortGenes arr ++ sortLoop rest (objSet obj (jsKey c) (sortGenes arr)) := by
  rw [sortLoop.eq_2, h]


theorem buildGroups_get_notin (genes : List Gene) :
    ∀ (cats : List Cell) (obj : List (String × List Gene)) (k : String),
      (∀ c ∈ cats, (jsKey c == k) = false) →
      objGet (buildGroups genes cats obj) k = objGet obj k := by
  intro cats
  induction cats with
  | nil => intro obj k _; rfl
  | cons c rest ih =>
    intro obj k hk
    rw [buildGroups_cons, ih _ k (fun c2 hc2 => hk c2 (by simp [hc2]))]
    by_cases he : (genes.filter (fun g => strictEq g.category c)).isEmpty = true
    · rw [if_pos he]
    · rw [if_neg he, objGet_objSet_ne _ _ _ _ (hk c (by simp))]

theorem buildGroups_get_mem (genes : List Gene) :
    ∀ (cats : List Cell) (obj : List (String × List Gene)) (c : Cell),
      cats.Pairwise (fun a b => (jsKey a == jsKey b) = false) →
      (∀ c2 ∈ cats, (genes.filter (fun g => strictEq g.category c2)).isEmpty = false) →
      c ∈ cats →
      objGet (buildGroups genes cats obj) (jsKey c) =
        some (genes.filter (fun g => strictEq g.category c)) := by
  intro cats
  induction cats with
  | nil =>
    intro obj c _ _ hc
    simp at hc
  | cons c0 rest ih =>
    intro obj c hpw hne hc
    have hpw2 := List.pairwise_cons.mp hpw
    have hne0 := hne c0 (by simp)
    rw [buildGroups_cons, if_neg (by simp [hne0])]
    rcases List.mem_cons.mp hc with rfl | hc2
    · rw [buildGroups_get_notin genes rest _ (jsKey c) (fun c2 hc2 =>
        beq_eq_false_iff_ne.mpr (Ne.symm (beq_eq_false_iff_ne.mp (hpw2.1 c2 hc2))))]
      exact objGet_objSet_self _ _ _
    · exact ih _ c hpw2.2 (fun c2 h2 => hne c2 (by simp [h2])) hc2

theorem sortLoop_of_get (F : Cell → List Gene) :
    ∀ (cats : List Cell) (obj : List (String × List Gene)),
      cats.Pairwise (fun a b => (jsKey a == jsKey b) = false) →
      (∀ c ∈ cats, objGet obj (jsKey c) = some (F c)) →
      sortLoop cats obj = cats.flatMap (fun c => sortGenes (F c)) := by
  intro cats
  induction cats with
  | nil => intro obj _ _; rfl
  | cons c rest ih =>
    intro obj hpw hget
    have hpw2 := List.pairwise_cons.mp hpw
    rw [sortLoop_cons_some (hget c (by simp)), List.flatMap_cons]
    congr 1
    refine ih _ hpw2.2 ?_
    intro c2 hc2
    rw [objGet_objSet_ne _ _ _ _ (hpw2.1 c2 hc2)]
    exact hget c2 (by simp [hc2])

/-- The source's string-keyed grouping coincides with the collision-free
grouping exactly when no category is `NaN` (`hself`) and distinct categories
keep distinct string coercions (`hinj`). -/
theorem sortedGeneData_eq_noCollision (genes : List Gene)
    (hself : ∀ g ∈ genes, strictEq g.category g.category = true)
    (hinj : ∀ g1 ∈ genes, ∀ g2 ∈ genes,
      jsKey g1.category = jsKey g2.category → g1.category = g2.category) :
    sortedGeneData genes = groupSortNoCollision genes := by
  have hcmem : ∀ c ∈ insertionDedup (genes.map (fun g => g.category)),
      ∃ g ∈ genes, g.category = c := by
    intro c hc
    rcases List.mem_map.mp ((mem_insertionDedup _ c).mp hc) with ⟨g, hg, hgc⟩
    exact ⟨g, hg, hgc⟩
  have hpw : (insertionDedup (genes.map (fun g => g.category))).Pairwise
      (fun a b => (jsKey a == jsKey b) = false) := by
    have hnd := nodup_insertionDedup (genes.map (fun g => g.category))
    refine List.Pairwise.imp_of_mem ?_ hnd
    intro a b ha hb hab
    rw [beq_eq_false_iff_ne]
    intro hkey
    rcases hcmem a ha with ⟨g1, hg1, hc1⟩
    rcases hcmem b hb with ⟨g2, hg2, hc2⟩
    refine hab ?_
    rw [← hc1, ← hc2]
    exact hinj g1 hg1 g2 hg2 (by rw [hc1, hc2]; exact hkey)
  have hne_all : ∀ c ∈ insertionDedup (genes.map (fun g => g.category)),
      (genes.filter (fun g => strictEq g.category c)).isEmpty = false := by
    intro c hc
    rcases hcmem c hc with ⟨g, hg, hgc⟩
    have hmem : g ∈ genes.filter (fun g2 => strictEq g2.category c) := by
      refine List.mem_filter.mpr ⟨hg, ?_⟩
      have := hself g hg
      rw [hgc] at this
      rw [hgc]
      exact this
    by_contra hne2
    rw [Bool.not_eq_false] at hne2
    rw [List.isEmpty_iff.mp hne2] at hmem
    simp at hmem
  have hget := fun c hc => buildGroups_get_mem genes
    (insertionDedup (genes.map (fun g => g.category))) [] c hpw hne_all hc
  show sortLoop (insertionDedup (genes.map (fun g => g.category)))
    (buildGroups genes (insertionDedup (genes.map (fun g => g.category))) []) = _
  rw [sortLoop_of_get (fun c => genes.filter (fun g => strictEq g.category c)) _ _ hpw hget]
  unfold groupSortNoCollision
  refine flatMap_congr_mem ?_
  intro c hc
  simp only []
  have hfeq : genes.filter (fun g => strictEq g.category c) =
      genes.filter (fun g => g.category == c) := by
    refine List.filter_congr ?_
    intro g hg
    have hgnan : g.category ≠ Cell.nan := ne_nan_of_strictEq_self (hself g hg)
    have hcnan : c ≠ Cell.nan := by
      rcases hcmem c hc with ⟨g2, hg2, hgc2⟩
      rw [← hgc2]
      exact ne_nan_of_strictEq_self (hself g2 hg2)
    exact strictEq_eq_beq hgnan hcnan
  have hfe2 : (genes.filter (fun g => g.category == c)).isEmpty = false := by
    rw [← hfeq]
    exact hne_all c hc
  rw [hfeq, if_neg (by simp [hfe2])]

/-! ## Category segments: tiling and boundaries -/

def sumCounts (segs : List CategorySegment) : Nat := (segs.map (fun s => s.count)).sum

/-- `segs` tiles the index range `[p, n)` in ascending, contiguous,
non-overlapping order: each segment starts where the previous one ended plus
one, has a positive count, its `endIndex` is `startIndex + count - 1`, and
the final segment ends at `n - 1`. -/
def tiles : Nat → List CategorySegment → Nat → Prop
  | p, [], n => p = n
  | p, s :: rest, n =>
    s.startIndex = p ∧ 1 ≤ s.count ∧ s.endIndex + 1 = p + s.count ∧
      tiles (p + s.count) rest n

theorem catGroupsGo_tiles :
    ∀ (l : List Cell) (idx : Nat) (cur : Cell) (start : Nat), start < idx →
      tiles start (catGroupsGo l idx cur start) (idx + l.length) := by
  intro l
  induction l with
  | nil =>
    intro idx cur start h
    show tiles start [⟨cur, start, idx - 1, idx - start⟩] (idx + 0)
    exact ⟨rfl, show 1 ≤ idx - start by omega,
      show (idx - 1) + 1 = start + (idx - start) by omega,
      show start + (idx - start) = idx + 0 by omega⟩
  | cons c rest ih =>
    intro idx cur start h
    simp only [catGroupsGo, List.length_cons]
    split
    · have := ih (idx + 1) cur start (by omega)
      have harith : idx + 1 + rest.length = idx + (rest.length + 1) := by omega
      rwa [harith] at this
    · have hrec := ih (idx + 1) c idx (by omega)
      have harith2 : idx + 1 + rest.length = idx + (rest.length + 1) := by omega
      rw [harith2] at hrec
      refine ⟨rfl, show 1 ≤ idx - start by omega,
        show (idx - 1) + 1 = start + (idx - start) by omega, ?_⟩
      have harith1 : start + (idx - start) = idx := by omega
      rw [harith1]
      exact hrec

theorem tiles_sum :
    ∀ (segs : List CategorySegment) (p n : Nat), tiles p segs n → p + sumCounts segs = n := by
  intro segs
  induction segs with
  | nil =>
    intro p n h
    simpa [sumCounts, tiles] using h
  | cons s rest ih =>
    intro p n h
    rcases h with ⟨_, _, _, ht⟩
    have := ih (p + s.count) n ht
    simp only [sumCounts, List.map_cons, List.sum_cons] at this ⊢
    omega

theorem categoryGroupsOf_tiles (cs : List Cell) :
    tiles 0 (categoryGroupsOf cs) cs.length := by
  cases cs with
  | nil => simp [categoryGroupsOf, tiles]
  | cons c rest =>
    have := catGroupsGo_tiles rest 1 c 0 (by omega)
    have harith : 1 + rest.length = rest.length + 1 := by omega
    rw [harith] at this
    simpa [categoryGroupsOf] using this

/-- The start indices of the segments opened after the first one: a new
segment opens at `idx + k` exactly when the category at that position differs
from the one before it. -/
def newStarts : List Cell → Nat → Cell → List Nat
  | [], _, _ => []
  | c :: rest, idx, cur =>
    if c = cur then newStarts rest (idx + 1) cur else idx :: newStarts rest (idx + 1) c

theorem catGroupsGo_starts :
    ∀ (l : List Cell) (idx : Nat) (cur : Cell) (start : Nat),
      (catGroupsGo l idx cur start).map (fun s => s.startIndex) =
        start :: newStarts l idx cur := by
  intro l
  induction l with
  | nil =>
    intro idx cur start
    simp [catGroupsGo, newStarts]
  | cons c rest ih =>
    intro idx cur start
    simp only [catGroupsGo, newStarts]
    split
    · exact ih (idx + 1) cur start
    · simp [ih (idx + 1) c idx]

theorem mem_newStarts :
    ∀ (l : List Cell) (idx : Nat) (cur : Cell) (i : Nat),
      i ∈ newStarts l idx cur ↔
        ∃ k, k < l.length ∧ i = idx + k ∧ l[k]? ≠ (cur :: l)[k]? := by
  intro l
  induction l with
  | nil =>
    intro idx cur i
    simp [newStarts]
  | cons c rest ih =>
    intro idx cur i
    simp only [newStarts]
    split
    · rename_i hc
      subst hc
      rw [ih]
      constructor
      · rintro ⟨k, hk, rfl, hne⟩
        refine ⟨k + 1, by simpa using hk, by omega, ?_⟩
        simpa using hne
      · rintro ⟨k, hk, hi, hne⟩
        cases k with
        | zero => simp at hne
        | succ k =>
          refine ⟨k, by simpa using hk, by omega, ?_⟩
          simpa using hne
    · rename_i hc
      simp only [List.mem_cons, ih]
      constructor
      · rintro (rfl | ⟨k, hk, rfl, hne⟩)
        · exact ⟨0, by simp, by omega, by simp [hc]⟩
        · refine ⟨k + 1, by simpa using hk, by omega, ?_⟩
          simpa using hne
      · rintro ⟨k, hk, hi, hne⟩
        cases k with
        | zero => left; omega
        | succ k =>
          right
          refine ⟨k, by simpa using hk, by omega, ?_⟩
          simpa using hne

theorem categoryGroupsOf_boundary (cs : List Cell) (i : Nat) (h1 : 1 ≤ i)
    (h2 : i < cs.length) :
    (cs[i]? ≠ cs[i - 1]?) ↔ ∃ s ∈ categoryGroupsOf cs, s.startIndex = i := by
  cases cs with
  | nil => simp at h2
  | cons c rest =>
    have hmem : (∃ s ∈ categoryGroupsOf (c :: rest), s.startIndex = i) ↔
        i ∈ (0 :: newStarts rest 1 c) := by
      rw [← catGroupsGo_starts rest 1 c 0]
      show _ ↔ i ∈ (categoryGroupsOf (c :: rest)).map (fun s => s.startIndex)
      simp [List.mem_map, eq_comm]
    rw [hmem, List.mem_cons, mem_newStarts]
    obtain ⟨k, rfl⟩ : ∃ k, i = k + 1 := ⟨i - 1, by omega⟩
    constructor
    · intro hne
      refine Or.inr ⟨k, by simpa using h2, by omega, ?_⟩
      simpa using hne
    · rintro (h | ⟨k2, hk2, hik, hne⟩)
      · omega
      · have : k2 = k := by omega
        subst this
        simpa using hne

/-! ## Pipeline inversion and row counting -/

theorem datasetOf_genes (rows : List Row) :
    (datasetOf rows).genes = sortedGeneData (geneDataOf rows) := rfl

theorem datasetOf_categoryGroups (rows : List Row) :
    (datasetOf rows).categoryGroups =
      categoryGroupsOf ((sortedGeneData (geneDataOf rows)).map (fun g => g.category)) := rfl

theorem datasetOf_comparisons (rows : List Row) :
    (datasetOf rows).comparisons = shortNamesOf (headersOf rows) := rfl

theorem processExcelFile_ok_inv {rows : List Row} {d : Dataset}
    (h : processExcelFile rows = .ok d) :
    d = datasetOf rows ∧ rows.length ≠ 0 ∧ (headersOf rows).length ≠ 0 ∧
      (detectComparisons (headersOf rows)).length ≠ 0 ∧ (geneDataOf rows).length ≠ 0 := by
  unfold processExcelFile at h
  split_ifs at h with h1 h2 h3 h4
  simp only [Except.ok.injEq] at h
  exact ⟨h.symm, h1, h2, h3, h4⟩

theorem length_filterMap_if {α β : Type} (p : α → Bool) (f : α → β) (l : List α) :
    (l.filterMap (fun a => if p a then some (f a) else none)).length =
      (l.filter p).length := by
  induction l with
  | nil => rfl
  | cons a t ih =>
    by_cases h : p a <;> simp [h, ih]

theorem geneDataOf_length (rows : List Row) :
    (geneDataOf rows).length = (rows.filter keepRow).length := by
  unfold geneDataOf
  exact length_filterMap_if _ _ rows

theorem filter_length_split {α : Type} (p : α → Bool) (l : List α) :
    (l.filter p).length + (l.filter (fun a => !p a)).length = l.length := by
  have := (List.filter_append_perm p l).length_eq
  simpa using this

/-! ## Claim C1 -/

/-- C1: for every successfully built Dataset, the `categoryGroups` sequence
partitions the index range `[0, geneCount)` exactly: the segments are in
ascending, non-overlapping, contiguous order, the sum of their counts equals
the number of genes, and a segment boundary occurs exactly where the
category of consecutive genes in the final sorted sequence differs. -/
theorem claim_c1_segments_partition (rows : List Row) (d : Dataset)
    (h : processExcelFile rows = .ok d) :
    tiles 0 d.categoryGroups d.genes.length ∧
    sumCounts d.categoryGroups = d.genes.length ∧
    (∀ i, 1 ≤ i → i < d.genes.length →
      ((d.genes.map (fun g => g.category))[i]? ≠
          (d.genes.map (fun g => g.category))[i - 1]? ↔
        ∃ s ∈ d.categoryGroups, s.startIndex = i)) := by
  obtain ⟨rfl, -, -, -, -⟩ := processExcelFile_ok_inv h
  rw [datasetOf_categoryGroups, datasetOf_genes]
  have hlen : (sortedGeneData (geneDataOf rows)).length =
      ((sortedGeneData (geneDataOf rows)).map (fun g => g.category)).length := by simp
  rw [hlen]
  have hts := categoryGroupsOf_tiles
    ((sortedGeneData (geneDataOf rows)).map (fun g => g.category))
  have hsum := tiles_sum _ _ _ hts
  refine ⟨hts, by omega, ?_⟩
  intro i hi1 hi2
  exact categoryGroupsOf_boundary _ i hi1 hi2

def c1rows : List Row :=
  [[("Gene ID", .str "g1"), ("Log2FC (A)", .num 2), ("Category", .str "X")],
   [("Gene ID", .str "g2"), ("Log2FC (A)", .num 1), ("Category", .str "X")],
   [("Gene ID", .str "g3"), ("Log2FC (A)", .num 5), ("Category", .str "Y")]]

/-- Witness for C1 at a concrete three-row, two-category input. -/
theorem claim_c1_witness :
    tiles 0 (datasetOf c1rows).categoryGroups (datasetOf c1rows).genes.length ∧
    sumCounts (datasetOf c1rows).categoryGroups = (datasetOf c1rows).genes.length ∧
    (∀ i, 1 ≤ i → i < (datasetOf c1rows).genes.length →
      (((datasetOf c1rows).genes.map (fun g => g.category))[i]? ≠
          ((datasetOf c1rows).genes.map (fun g => g.category))[i - 1]? ↔
        ∃ s ∈ (datasetOf c1rows).categoryGroups, s.startIndex = i)) :=
  claim_c1_segments_partition c1rows (datasetOf c1rows) (by decide)

/-! ## Claim C2 -/

/-- C2: for every nonempty input whose (nonempty) header set contains no
header matching the fold-change pattern, the pipeline fails with the schema
error ("No comparison columns found…") and produces no Dataset. -/
theorem claim_c2_schema_error (rows : List Row) (h0 : rows ≠ [])
    (h1 : headersOf rows ≠ [])
    (h2 : ∀ h ∈ headersOf rows, matchHeader log2fcMarker h = none) :
    processExcelFile rows = .error .schemaError := by
  have hr : ¬rows.length = 0 := fun hc => h0 (List.length_eq_zero.mp hc)
  have hh : ¬(headersOf rows).length = 0 := fun hc => h1 (List.length_eq_zero.mp hc)
  have hd : (detectComparisons (headersOf rows)).length = 0 := by
    rw [List.length_eq_zero, detectComparisons, List.filter_eq_nil_iff]
    intro h hmem
    simp [h2 h hmem]
  unfold processExcelFile
  rw [if_neg hr, if_neg hh, if_pos hd]

/-- Witness for C2: a one-row table with a lone `Gene ID` column. -/
theorem claim_c2_witness :
    processExcelFile [[("Gene ID", Cell.str "A")]] = .error .schemaError :=
  claim_c2_schema_error _ (by decide) (by decide) (by decide)

/-! ## Claim C3 -/

def c3rows : List Row :=
  [[("Gene ID", .str "A"), ("Log2FC (Ctrl vs KD)", .num (mkRat 6 5)),
    ("P value (Ctrl vs KD)", .num (mkRat 3 100)),
    ("All Gene Ontology Category", .str "Lipid")],
   [("Gene ID", .str "B"), ("Log2FC (Ctrl vs KD)", .num (mkRat (-1) 2)),
    ("P value (Ctrl vs KD)", .num (mkRat 1 5)),
    ("All Gene Ontology Category", .str "Lipid")]]

/-- C3: on the two-row example (gene A: Log2FC 1.2, p 0.03, category Lipid;
gene B: Log2FC −0.5, p 0.2, category Lipid) the pipeline succeeds with
exactly 2 genes ordered [B, A] (ascending by `values[0]`) and the single
category segment `{category: Lipid, startIndex: 0, endIndex: 1, count: 2}`. -/
theorem claim_c3_example_scenario :
    processExcelFile c3rows = .ok (datasetOf c3rows) ∧
    (datasetOf c3rows).genes.length = 2 ∧
    (datasetOf c3rows).genes =
      [⟨.str "B", .str "Lipid", [.num (mkRat (-1) 2)], [.num (mkRat 1 5)]⟩,
       ⟨.str "A", .str "Lipid", [.num (mkRat 6 5)], [.num (mkRat 3 100)]⟩] ∧
    (datasetOf c3rows).categoryGroups = [⟨.str "Lipid", 0, 1, 2⟩] := by
  refine ⟨by decide, by decide, by decide, by decide⟩

/-! ## Claim C6 -/

theorem geneDataOf_category_truthy {rows : List Row} {g : Gene}
    (hg : g ∈ geneDataOf rows) : truthy g.category = true := by
  simp only [geneDataOf] at hg
  rcases List.mem_filterMap.mp hg with ⟨row, _, hsome⟩
  by_cases hk : keepRow row
  · rw [if_pos hk] at hsome
    have hgeq := Option.some.inj hsome
    subst hgeq
    simp only [mkGene]
    cases hcc : categoryColOf (headersOf rows) with
    | none =>
      show truthy (Cell.str "Uncategorized") = true
      decide
    | some cc =>
      show truthy (if truthy (getCell row cc) = true then getCell row cc
        else Cell.str "Uncategorized") = true
      by_cases ht : truthy (getCell row cc) = true
      · rw [if_pos ht]
        exact ht
      · rw [if_neg ht]
        decide
  · rw [if_neg hk] at hsome
    exact absurd hsome (by simp)

def c6badrows : List Row :=
  [[("Gene ID", .str "a"), ("Log2FC (F)", .num (mkRat 1 1)),
    ("Category", .num (mkRat 5 1))],
   [("Gene ID", .str "b"), ("Log2FC (F)", .num (mkRat 2 1)),
    ("Category", .num (mkRat 5 1))],
   [("Gene ID", .str "c"), ("Log2FC (F)", .num (mkRat 3 1)),
    ("Category", .str "5")]]

/-- C6 counterexample: on a three-row table whose identifiers are all valid
(nothing is excluded) but whose categories are the number 5, the number 5
and the string "5", the string-keyed grouping object collapses both
categories onto the key "5": the group of the two numerically-categorised
genes is overwritten and the surviving one-gene group is pushed once per
raw category, so the Dataset holds 2 genes — not 3 − 0 as the claim's count
equation demands. -/
theorem claim_c6_counterexample :
    processExcelFile c6badrows = Except.ok (datasetOf c6badrows) ∧
    (∀ r ∈ c6badrows, keepRow r = true) ∧
    ¬(datasetOf c6badrows).genes.length =
      c6badrows.length - (c6badrows.filter (fun r => !keepRow r)).length := by
  decide

/-- C6 (amended): every row whose extracted identifier is missing, blank, or
whitespace-only fails the keep test and is excluded from the Dataset; and
provided the surviving rows' distinct category values have distinct
JavaScript string coercions, the gene count equals the input row count minus
the number of excluded rows.  (Without that proviso the string-keyed
grouping object merges colliding categories and the count can drop below it:
see the counterexample.) -/
theorem claim_c6_blank_ids_excluded (rows : List Row) (d : Dataset)
    (h : processExcelFile rows = .ok d)
    (hinj : ∀ g1 ∈ geneDataOf rows, ∀ g2 ∈ geneDataOf rows,
      jsKey g1.category = jsKey g2.category → g1.category = g2.category) :
    d.genes.length = rows.length - (rows.filter (fun r => !keepRow r)).length ∧
    ∀ row ∈ rows,
      (extractGeneId row = Cell.undefined ∨
        ∃ s, extractGeneId row = Cell.str s ∧ trimJs s = "") →
      keepRow row = false := by
  obtain ⟨rfl, -, -, -, -⟩ := processExcelFile_ok_inv h
  constructor
  · rw [datasetOf_genes, sortedGeneData_eq_noCollision (geneDataOf rows)
      (fun g hg => strictEq_self_of_truthy (geneDataOf_category_truthy hg)) hinj]
    have h1 := (groupSort_perm (geneDataOf rows)).length_eq
    rw [h1, geneDataOf_length]
    have h2 := filter_length_split keepRow rows
    omega
  · rintro row - (hid | ⟨s, hid, hs⟩)
    · simp [keepRow, hid, normId, truthy]
    · simp [keepRow, hid, normId, hs, truthy]

def c6rows : List Row :=
  [[("Gene ID", .str "ok"), ("Log2FC (A)", .num 3)],
   [("Gene ID", .str "   ")],
   [("GeneID", .str "ok2"), ("Log2FC (A)", .num 1)]]

/-- Witness for C6: a table with one whitespace-only identifier among three
rows (all surviving categories are the default string "Uncategorized", so
the collision-freedom hypothesis holds by computation). -/
theorem claim_c6_witness :
    (datasetOf c6rows).genes.length =
        c6rows.length - (c6rows.filter (fun r => !keepRow r)).length ∧
    ∀ row ∈ c6rows,
      (extractGeneId row = Cell.undefined ∨
        ∃ s, extractGeneId row = Cell.str s ∧ trimJs s = "") →
      keepRow row = false :=
  claim_c6_blank_ids_excluded c6rows (datasetOf c6rows) (by decide) (by decide)

/-! ## Claim C7 -/

/-- C7: the whole batch fails with a data error (the `noData` "No data found"
/ `dataError` "No valid gene data found" throws — the spec's `DataError`)
exactly when the table has zero rows or every row is dropped for a missing
identifier; when a comparison column is detected and at least one row
survives, the pipeline produces a Dataset. -/
theorem claim_c7_data_error_iff (rows : List Row) :
    ((processExcelFile rows = .error .noData ∨
        processExcelFile rows = .error .dataError) ↔
      (rows = [] ∨
        ((∃ h ∈ headersOf rows, (matchHeader log2fcMarker h).isSome) ∧
          ∀ r ∈ rows, keepRow r = false))) ∧
    ((∃ h ∈ headersOf rows, (matchHeader log2fcMarker h).isSome) →
      (∃ r ∈ rows, keepRow r = true) → ∃ d, processExcelFile rows = .ok d) := by
  have hcomp : (detectComparisons (headersOf rows)).length = 0 ↔
      ¬∃ h ∈ headersOf rows, (matchHeader log2fcMarker h).isSome := by
    rw [List.length_eq_zero, detectComparisons, List.filter_eq_nil_iff]
    constructor
    · rintro hall ⟨h, hmem, hsome⟩
      exact absurd hsome (by simpa using hall h hmem)
    · intro hno h hmem
      simp only [Bool.not_eq_true]
      rw [← Bool.not_eq_true]
      intro hc
      exact hno ⟨h, hmem, hc⟩
  have hgene : (geneDataOf rows).length = 0 ↔ ∀ r ∈ rows, keepRow r = false := by
    rw [geneDataOf_length, List.length_eq_zero, List.filter_eq_nil_iff]
    constructor
    · intro hall r hr
      simpa using hall r hr
    · intro hall r hr
      simp [hall r hr]
  by_cases h1 : rows.length = 0
  · have hnil : rows = [] := List.length_eq_zero.mp h1
    subst hnil
    have hp : processExcelFile [] = .error .noData := by decide
    constructor
    · simp [hp]
    · rintro ⟨h, hmem, -⟩ -
      exact absurd hmem (by simp [headersOf])
  · by_cases h2 : (headersOf rows).length = 0
    · have hp : processExcelFile rows = .error .noHeaders := by
        unfold processExcelFile
        rw [if_neg h1, if_pos h2]
      have hnoc : ¬∃ h ∈ headersOf rows, (matchHeader log2fcMarker h).isSome := by
        rintro ⟨h, hmem, -⟩
        rw [List.length_eq_zero.mp h2] at hmem
        exact absurd hmem (by simp)
      constructor
      · simp only [hp]
        constructor
        · rintro (hc | hc) <;> exact absurd hc (by simp)
        · rintro (hc | ⟨hc, -⟩)
          · exact absurd hc (fun hcc => h1 (by simp [hcc]))
          · exact absurd hc hnoc
      · intro hc
        exact absurd hc hnoc
    · by_cases h3 : (detectComparisons (headersOf rows)).length = 0
      · have hp : processExcelFile rows = .error .schemaError := by
          unfold processExcelFile
          rw [if_neg h1, if_neg h2, if_pos h3]
        have hnoc := hcomp.mp h3
        constructor
        · simp only [hp]
          constructor
          · rintro (hc | hc) <;> exact absurd hc (by simp)
          · rintro (hc | ⟨hc, -⟩)
            · exact absurd hc (fun hcc => h1 (by simp [hcc]))
            · exact absurd hc hnoc
        · intro hc
          exact absurd hc hnoc
      · by_cases h4 : (geneDataOf rows).length = 0
        · have hp : processExcelFile rows = .error .dataError := by
            unfold processExcelFile
            rw [if_neg h1, if_neg h2, if_neg h3, if_pos h4]
          have hex : ∃ h ∈ headersOf rows, (matchHeader log2fcMarker h).isSome :=
            not_not.mp (fun hc => h3 (hcomp.mpr hc))
          constructor
          · simp only [hp]
            constructor
            · intro _
              exact Or.inr ⟨hex, hgene.mp h4⟩
            · intro _
              simp
          · rintro - ⟨r, hr, hkeep⟩
            exfalso
            have := hgene.mp h4 r hr
            simp [this] at hkeep
        · have hp : processExcelFile rows = .ok (datasetOf rows) := by
            unfold processExcelFile
            rw [if_neg h1, if_neg h2, if_neg h3, if_neg h4]
          constructor
          · simp only [hp]
            constructor
            · rintro (hc | hc) <;> exact absurd hc (by simp)
            · rintro (hc | ⟨-, hall⟩)
              · exact absurd hc (fun hcc => h1 (by simp [hcc]))
              · exact absurd (hgene.mpr hall) h4
          · intro _ _
            exact ⟨datasetOf rows, hp⟩

def c7rows : List Row :=
  [[("Gene ID", .str "z"), ("Log2FC (A)", .num 4)]]

/-- Witness for C7: a one-row table with a comparison column and a surviving
row yields a Dataset. -/
theorem claim_c7_witness : ∃ d, processExcelFile c7rows = .ok d :=
  (claim_c7_data_error_iff c7rows).2 (by decide) (by decide)

/-! ## Claim C5 -/

/-- Counterexample to C5 as stated: a `null` p-value produces a visible
marker of the largest radius (JavaScript coerces `null` to `0`, so
`null < 0.05` holds and `getSizeForPValue(null)` takes the `< 0.01` branch
returning 5), and `p = 0.05` produces a visible marginal grey radius-2
marker — the claim asserts a null p-value yields no visible marker and that
`markerTierFor(0.05)` is not visible. -/
theorem claim_c5_counterexample :
    (markerFor (some JsVal.null)).visible = true ∧
    markerFor (some JsVal.null) = ⟨true, 5, true⟩ ∧
    (markerFor (some (JsVal.num (mkRat 1 20)))).visible = true ∧
    markerFor (some (JsVal.num (mkRat 1 20))) = ⟨true, 2, false⟩ := by
  refine ⟨by decide, by decide, by decide, by decide⟩

/-- C5 amended: the marker logic uses the fixed thresholds 0.01, 0.05, 0.1,
but a `null` p-value is coerced to 0 and receives the largest black radius-5
marker; a p-value `>= 0.1` (as well as `NaN` or a missing one) yields no
visible marker; `0.05 <= p < 0.1` yields the visible low-emphasis grey
radius-2 marker, so at exactly 0.05 the black significance marker disappears
(`getSizeForPValue(0.05) = 0`) but a marker is still visible;
`0.01 <= p < 0.05` yields the visible standard black radius-3 marker (so
`markerTierFor(0.049)` is visible standard-size); `p < 0.01` yields the
largest black radius-5 marker. -/
theorem claim_c5_amended_marker_tiers (p : Option JsVal) :
    (p = some JsVal.null → markerFor p = ⟨true, 5, true⟩) ∧
    (∀ q : ℚ, p = some (JsVal.num q) →
      (q < mkRat 1 100 → markerFor p = ⟨true, 5, true⟩) ∧
      (mkRat 1 100 ≤ q → q < mkRat 1 20 → markerFor p = ⟨true, 3, true⟩) ∧
      (mkRat 1 20 ≤ q → q < mkRat 1 10 → markerFor p = ⟨true, 2, false⟩) ∧
      (mkRat 1 10 ≤ q → markerFor p = ⟨false, 0, false⟩)) ∧
    ((p = some JsVal.nan ∨ p = none) → markerFor p = ⟨false, 0, false⟩) ∧
    markerFor (some (JsVal.num (mkRat 49 1000))) = ⟨true, 3, true⟩ := by
  have e1 : (mkRat 1 100 : ℚ) = 1 / 100 := by rw [Rat.mkRat_eq_div]; norm_num
  have e2 : (mkRat 1 20 : ℚ) = 1 / 20 := by rw [Rat.mkRat_eq_div]; norm_num
  have e3 : (mkRat 1 10 : ℚ) = 1 / 10 := by rw [Rat.mkRat_eq_div]; norm_num
  refine ⟨?_, ?_, ?_, by decide⟩
  · rintro rfl
    decide
  · rintro q rfl
    refine ⟨?_, ?_, ?_, ?_⟩
    · intro h1
      have h2 : q < mkRat 1 20 := by rw [e2]; rw [e1] at h1; linarith
      have h3 : ¬mkRat 1 20 ≤ q := by rw [e2]; rw [e1] at h1; intro hc; linarith
      simp [markerFor, numLt, numGe, toNumber, getSizeForPValue, h1, h2, h3]
    · intro h1 h2
      have h3 : ¬mkRat 1 20 ≤ q := by rw [e2] at h2 ⊢; intro hc; linarith
      have h4 : ¬q < mkRat 1 100 := by rw [e1] at h1 ⊢; intro hc; linarith
      simp [markerFor, numLt, numGe, toNumber, getSizeForPValue, h2, h3, h4]
    · intro h1 h2
      have h3 : ¬q < mkRat 1 20 := by rw [e2] at h1 ⊢; intro hc; linarith
      simp [markerFor, numLt, numGe, toNumber, getSizeForPValue, h1, h2, h3]
    · intro h1
      have h2 : ¬q < mkRat 1 20 := by
        rw [e2]; rw [e3] at h1; intro hc; linarith
      have h3 : ¬q < mkRat 1 10 := by rw [e3] at h1 ⊢; intro hc; linarith
      have h4 : mkRat 1 20 ≤ q := by rw [e2]; rw [e3] at h1; linarith
      simp [markerFor, numLt, numGe, toNumber, getSizeForPValue, h2, h3, h4]
  · rintro (rfl | rfl) <;> decide

/-- Witness for the amended C5 at `p = 0.005`. -/
theorem claim_c5_witness :
    markerFor (some (JsVal.num (mkRat 5 1000))) = ⟨true, 5, true⟩ :=
  ((claim_c5_amended_marker_tiers (some (JsVal.num (mkRat 5 1000)))).2.1
    (mkRat 5 1000) rfl).1 (by decide)

/-! ## Header-pattern parsing lemmas -/

/-- Pointwise case-insensitive equality of two character lists. -/
def ciSame (a b : List Char) : Prop :=
  List.Forall₂ (fun c m => c.toLower = m.toLower) a b

instance (a b : List Char) : Decidable (ciSame a b) := by
  unfold ciSame
  infer_instance

theorem stripCi_of_ciSame :
    ∀ {pre marker : List Char}, ciSame pre marker →
      ∀ rest : List Char, stripCi marker (pre ++ rest) = some rest := by
  intro pre marker h
  induction h with
  | nil => intro rest; rfl
  | cons hcm _ ih =>
    intro rest
    simp only [List.cons_append, stripCi]
    rw [if_pos hcm]
    exact ih rest

theorem dropWhile_space_paren (ws r : List Char) (hws : ∀ c ∈ ws, jsSpace c = true) :
    List.dropWhile jsSpace (ws ++ '(' :: r) = '(' :: r := by
  have hparen : jsSpace '(' = false := by decide
  induction ws with
  | nil => simp [List.dropWhile, hparen]
  | cons c t ih =>
    simp only [List.cons_append, List.dropWhile]
    rw [hws c (by simp)]
    exact ih (fun a ha => hws a (by simp [ha]))

/-- Parser soundness: a header of the shape
`<marker'-ci><spaces>(<inner>)` matches the pattern with capture `inner`. -/
theorem matchHeader_build (marker pre ws inner : List Char) (s : String)
    (hs : s.data = pre ++ (ws ++ ('(' :: (inner ++ [')']))))
    (hpre : ciSame pre marker)
    (hws : ∀ c ∈ ws, jsSpace c = true)
    (hne : inner ≠ [])
    (hdot : ∀ c ∈ inner, dotOk c = true) :
    matchHeader marker s = some (String.mk inner) := by
  have h0 : stripCi marker s.data = some (ws ++ ('(' :: (inner ++ [')']))) := by
    rw [hs]
    exact stripCi_of_ciSame hpre _
  simp only [matchHeader, h0, dropWhile_space_paren ws _ hws, List.getLast?_concat,
    List.dropLast_concat]
  rw [if_pos]
  simp only [Bool.and_eq_true, List.all_eq_true]
  exact ⟨by simpa [List.isEmpty_iff] using hne, hdot⟩

/-- Inversion for a successful pattern match: the capture is nonempty and
free of line terminators. -/
theorem matchHeader_some_inv {marker : List Char} {s cap : String}
    (h : matchHeader marker s = some cap) :
    cap.data ≠ [] ∧ ∀ c ∈ cap.data, dotOk c = true := by
  unfold matchHeader at h
  split at h <;> try exact Option.noConfusion h
  split at h <;> try exact Option.noConfusion h
  split at h <;> try exact Option.noConfusion h
  simp only [] at h
  split_ifs at h with hcond
  simp only [Option.some.injEq] at h
  subst h
  simp only [Bool.and_eq_true, List.all_eq_true] at hcond
  exact ⟨by simpa [List.isEmpty_iff] using hcond.1, hcond.2⟩

theorem all_reverse_mem {p : Char → Bool} {l : List Char}
    (h : ∀ c ∈ l, p c = true) : ∀ c ∈ l.reverse, p c = true := by
  intro c hc
  exact h c (List.mem_reverse.mp hc)

theorem mem_of_mem_dropWhile {q : Char → Bool} {l : List Char} {c : Char}
    (h : c ∈ l.dropWhile q) : c ∈ l := by
  induction l with
  | nil => simpa using h
  | cons a t ih =>
    simp only [List.dropWhile] at h
    by_cases hq : q a
    · rw [hq] at h
      exact List.mem_cons_of_mem _ (ih (by simpa using h))
    · rw [Bool.not_eq_true] at hq
      rw [hq] at h
      simpa using h

/-- Trimming keeps every character of the original string. -/
theorem trimJs_chars {s : String} {c : Char} (h : c ∈ (trimJs s).data) : c ∈ s.data := by
  unfold trimJs at h
  simp only [String.data] at h ⊢
  have h1 := List.mem_reverse.mp h
  have h2 := mem_of_mem_dropWhile (q := jsSpace) h1
  have h3 := List.mem_reverse.mp h2
  exact mem_of_mem_dropWhile (q := jsSpace) h3

theorem head_dropWhile_not {p : Char → Bool} {l : List Char} {c : Char}
    (h : (l.dropWhile p).head? = some c) : p c = false := by
  induction l with
  | nil => simpa using h
  | cons a t ih =>
    simp only [List.dropWhile] at h
    by_cases hq : p a
    · rw [hq] at h
      exact ih h
    · rw [Bool.not_eq_true] at hq
      rw [hq] at h
      simp only [List.head?_cons, Option.some.injEq] at h
      subst h
      exact hq

theorem dropWhile_eq_self_of_head {p : Char → Bool} {l : List Char}
    (h : ∀ c, l.head? = some c → p c = false) : l.dropWhile p = l := by
  cases l with
  | nil => rfl
  | cons a t => simp [List.dropWhile, h a rfl]

theorem getLast?_dropWhile {p : Char → Bool} :
    ∀ {l : List Char}, l.dropWhile p ≠ [] → (l.dropWhile p).getLast? = l.getLast? := by
  intro l
  induction l with
  | nil => intro h; simp [List.dropWhile] at h
  | cons a t ih =>
    intro h
    by_cases hp : p a
    · have hdw : (a :: t).dropWhile p = t.dropWhile p := by simp [List.dropWhile, hp]
      rw [hdw] at h ⊢
      have htne : t ≠ [] := by
        rintro rfl
        simp [List.dropWhile] at h
      rw [ih h]
      cases t with
      | nil => exact absurd rfl htne
      | cons b u => simp
    · have hdw : (a :: t).dropWhile p = a :: t := by
        simp [List.dropWhile, hp]
      rw [hdw]

/-- Trimming is idempotent. -/
theorem trimJs_trimJs (s : String) : trimJs (trimJs s) = trimJs s := by
  unfold trimJs
  show String.mk _ = String.mk _
  set m := (s.data.dropWhile jsSpace).reverse.dropWhile jsSpace with hm
  have h1 : m.reverse.dropWhile jsSpace = m.reverse := by
    apply dropWhile_eq_self_of_head
    intro c hc
    rw [List.head?_reverse] at hc
    have hmne : m ≠ [] := by
      rintro hnil
      rw [hnil] at hc
      simp at hc
    rw [hm] at hc hmne
    rw [getLast?_dropWhile hmne, List.getLast?_reverse] at hc
    exact head_dropWhile_not hc
  rw [h1]
  have h2 : m.reverse.reverse.dropWhile jsSpace = m := by
    rw [List.reverse_reverse, hm]
    apply dropWhile_eq_self_of_head
    intro c hc
    exact head_dropWhile_not hc
  rw [h2]

/-! ## Claim C8 -/

/-- C8: every header of the shape `<Log2FC-case-insensitive><whitespace>(X)`
(with `X` nonempty and free of line terminators) is detected as a comparison
column; at its position in the detected column list the display name is `X`
trimmed of surrounding whitespace; and the detected columns preserve the
order in which they occur in the header sequence (they form a sublist of the
headers — no re-sorting by name). -/
theorem claim_c8_schema_detection (headers : List String) (h : String)
    (pre ws inner : List Char)
    (hmem : h ∈ headers)
    (hs : h.data = pre ++ (ws ++ ('(' :: (inner ++ [')']))))
    (hpre : ciSame pre log2fcMarker)
    (hws : ∀ c ∈ ws, jsSpace c = true)
    (hne : inner ≠ [])
    (hdot : ∀ c ∈ inner, dotOk c = true) :
    h ∈ detectComparisons headers ∧
    (∃ i : Nat, (detectComparisons headers)[i]? = some h ∧
      (shortNamesOf headers)[i]? = some (trimJs (String.mk inner))) ∧
    (detectComparisons headers).Sublist headers := by
  have hmatch := matchHeader_build log2fcMarker pre ws inner h hs hpre hws hne hdot
  have hin : h ∈ detectComparisons headers := by
    rw [detectComparisons, List.mem_filter]
    exact ⟨hmem, by simp [hmatch]⟩
  refine ⟨hin, ?_, List.filter_sublist _⟩
  obtain ⟨i, hlt, hi⟩ := List.mem_iff_getElem.mp hin
  refine ⟨i, by simp [hlt, hi], ?_⟩
  rw [shortNamesOf, List.getElem?_map]
  rw [List.getElem?_eq_getElem hlt, hi]
  simp [hmatch]

def c8headers : List String := ["Gene ID", "log2fc ( Ctrl vs KD )", "P value (Ctrl vs KD)"]

/-- Witness for C8: a lower-case marker with extra whitespace is detected
with the trimmed display name `Ctrl vs KD`. -/
theorem claim_c8_witness :
    "log2fc ( Ctrl vs KD )" ∈ detectComparisons c8headers ∧
    (∃ i : Nat, (detectComparisons c8headers)[i]? = some "log2fc ( Ctrl vs KD )" ∧
      (shortNamesOf c8headers)[i]? = some (trimJs (String.mk " Ctrl vs KD ".data))) ∧
    (detectComparisons c8headers).Sublist c8headers :=
  claim_c8_schema_detection c8headers "log2fc ( Ctrl vs KD )"
    "log2fc".data [' '] " Ctrl vs KD ".data
    (by decide) (by decide) (by decide) (by decide) (by decide) (by decide)

/-! ## Claim C9 -/

theorem quantThresholds_length (domain : List ℚ) : (quantThresholds domain).length = 6 := by
  unfold quantThresholds
  rw [List.length_map, List.length_range]

theorem quantDomain_pairwise (genes : List Gene) :
    (quantDomain genes).Pairwise (· ≤ ·) := by
  have h := @pairwise_insertionSortBy ℚ ratLe (fun _ : ℚ => True)
    (fun a b _ _ => by
      rcases le_total a b with h | h
      · exact Or.inl (by simpa [ratLe] using h)
      · exact Or.inr (by simpa [ratLe] using h))
    (fun a b c _ _ _ hab hbc => by
      simp only [ratLe, decide_eq_true_eq] at hab hbc ⊢
      exact le_trans hab hbc)
    (nonNullValuesOf genes) (fun _ _ => trivial)
  exact h.imp (fun hab => by simpa [ratLe] using hab)

theorem quantDomain_perm_eq {g1 g2 : List Gene}
    (h : (nonNullValuesOf g1).Perm (nonNullValuesOf g2)) :
    quantDomain g1 = quantDomain g2 := by
  refine List.eq_of_perm_of_sorted ?_ (quantDomain_pairwise g1) (quantDomain_pairwise g2)
  exact (insertionSortBy_perm _ _).trans (h.trans (insertionSortBy_perm _ _).symm)

theorem countP_mono_of_imp {α : Type} {l : List α} {p q : α → Bool}
    (h : ∀ a ∈ l, p a = true → q a = true) : l.countP p ≤ l.countP q := by
  induction l with
  | nil => simp
  | cons a t ih =>
    have ht := ih (fun b hb => h b (by simp [hb]))
    rw [List.countP_cons, List.countP_cons]
    by_cases hp : p a
    · simp [hp, h a (by simp) hp]
      omega
    · simp only [Bool.not_eq_true] at hp
      simp [hp]
      omega

def c9pair : List Gene × List Gene :=
  ([⟨.str "g", .str "c", [.num 0], []⟩],
   [⟨.str "g", .str "c", [.num 0], []⟩, ⟨.str "h", .str "c", [.num 100], []⟩])

theorem quantile_dataset_dependent :
    colorScale .quantile c9pair.1 (.num 0) ≠ colorScale .quantile c9pair.2 (.num 0) := by
  norm_num [colorScale, quantileColor, quantDomain, nonNullValuesOf, insertionSortBy,
    orderedInsertBy, ratLe, quantThresholds, quantileSorted, bisectCount, List.countP,
    List.countP.go, rdBu7Rev, rdBu7, List.range, List.range.loop, Rat.mkRat_eq_div,
    List.flatMap, List.filterMap, List.getD, c9pair]
  decide

/-- C9: in quantile mode the colour of a numeric cell is the entry of the
7-step diverging scheme selected by right-bisecting the six quantile
thresholds computed over all non-null fold-change values of the dataset
(7 bins); the thresholds — and hence every cell's bin — depend only on the
multiset of the dataset's non-null values; the bin index is monotone in the
cell value; linear and log mode are independent of the dataset, and quantile
mode is the only one that can depend on it. -/
theorem claim_c9_quantile_mode (genes : List Gene) (q : ℚ)
    (hne : nonNullValuesOf genes ≠ []) :
    (colorScale .quantile genes (.num q) =
        .scheme (rdBu7Rev.getD (bisectCount (quantThresholds (quantDomain genes)) q) "") ∧
      (quantThresholds (quantDomain genes)).length = 6 ∧
      bisectCount (quantThresholds (quantDomain genes)) q ≤ 6 ∧
      rdBu7Rev.length = 7) ∧
    (∀ genes2, (nonNullValuesOf genes).Perm (nonNullValuesOf genes2) →
      quantThresholds (quantDomain genes) = quantThresholds (quantDomain genes2)) ∧
    (∀ q2 : ℚ, q ≤ q2 →
      bisectCount (quantThresholds (quantDomain genes)) q ≤
        bisectCount (quantThresholds (quantDomain genes)) q2) ∧
    (∀ genes2 v, colorScale .linear genes v = colorScale .linear genes2 v ∧
      colorScale .log genes v = colorScale .log genes2 v) ∧
    (∃ g1 g2 : List Gene, ∃ v : JsVal,
      colorScale .quantile g1 v ≠ colorScale .quantile g2 v) := by
  have hdom : quantDomain genes ≠ [] := by
    intro hc
    have hlen := (insertionSortBy_perm ratLe (nonNullValuesOf genes)).length_eq
    rw [show insertionSortBy ratLe (nonNullValuesOf genes) = quantDomain genes from rfl,
      hc] at hlen
    exact hne (List.length_eq_zero.mp hlen.symm)
  obtain ⟨v0, rest, hv⟩ := List.exists_cons_of_ne_nil hdom
  have hle6 : bisectCount (quantThresholds (quantDomain genes)) q ≤ 6 := by
    rw [bisectCount]
    calc (quantThresholds (quantDomain genes)).countP (fun t => decide (t ≤ q)) ≤
        (quantThresholds (quantDomain genes)).length := List.countP_le_length _
      _ = 6 := quantThresholds_length _
  refine ⟨⟨?_, quantThresholds_length _, hle6, by decide⟩, ?_, ?_, ?_, ?_⟩
  · simp only [colorScale, quantileColor, hv]
  · intro genes2 hperm
    rw [quantDomain_perm_eq hperm]
  · intro q2 hq
    exact countP_mono_of_imp (fun t _ ht => by
      simp only [decide_eq_true_eq] at ht ⊢
      exact le_trans ht hq)
  · intro genes2 v
    cases v <;> exact ⟨rfl, rfl⟩
  · exact ⟨c9pair.1, c9pair.2, .num 0, quantile_dataset_dependent⟩

def c9genes : List Gene := [⟨.str "w", .str "c", [.num 1], []⟩]

/-- Witness for C9 at a concrete one-gene dataset and value 1. -/
theorem claim_c9_witness :
    (colorScale .quantile c9genes (.num 1) =
        .scheme (rdBu7Rev.getD (bisectCount (quantThresholds (quantDomain c9genes)) 1) "") ∧
      (quantThresholds (quantDomain c9genes)).length = 6 ∧
      bisectCount (quantThresholds (quantDomain c9genes)) 1 ≤ 6 ∧
      rdBu7Rev.length = 7) ∧
    (∀ genes2, (nonNullValuesOf c9genes).Perm (nonNullValuesOf genes2) →
      quantThresholds (quantDomain c9genes) = quantThresholds (quantDomain genes2)) ∧
    (∀ q2 : ℚ, 1 ≤ q2 →
      bisectCount (quantThresholds (quantDomain c9genes)) 1 ≤
        bisectCount (quantThresholds (quantDomain c9genes)) q2) ∧
    (∀ genes2 v, colorScale .linear c9genes v = colorScale .linear genes2 v ∧
      colorScale .log c9genes v = colorScale .log genes2 v) ∧
    (∃ g1 g2 : List Gene, ∃ v : JsVal,
      colorScale .quantile g1 v ≠ colorScale .quantile g2 v) :=
  claim_c9_quantile_mode c9genes 1 (by decide)

/-! ## Regrouping an already grouped-and-sorted list is the identity -/

theorem filterMap_if_true {α β : Type} (p : α → Bool) (f : α → β) (l : List α)
    (h : ∀ a ∈ l, p a = true) :
    l.filterMap (fun a => if p a then some (f a) else none) = l.map f := by
  induction l with
  | nil => rfl
  | cons a t ih =>
    simp only [List.filterMap_cons, h a (by simp), if_pos, List.map_cons]
    rw [ih (fun b hb => h b (by simp [hb]))]

theorem insertionDedupAux_congr {α : Type} [DecidableEq α] :
    ∀ (l seen seen2 : List α), (∀ x ∈ l, x ∈ seen ↔ x ∈ seen2) →
      insertionDedupAux seen l = insertionDedupAux seen2 l := by
  intro l
  induction l with
  | nil => intro seen seen2 _; rfl
  | cons a t ih =>
    intro seen seen2 hiff
    simp only [insertionDedupAux]
    by_cases ha : a ∈ seen
    · rw [if_pos ha, if_pos ((hiff a (by simp)).mp ha)]
      exact ih seen seen2 (fun x hx => hiff x (by simp [hx]))
    · rw [if_neg ha, if_neg (fun hc => ha ((hiff a (by simp)).mpr hc))]
      congr 1
      refine ih (a :: seen) (a :: seen2) ?_
      intro x hx
      simp only [List.mem_cons]
      rw [hiff x (by simp [hx])]

theorem insertionDedupAux_replicate_mem {α : Type} [DecidableEq α]
    (c : α) (seen : List α) (hc : c ∈ seen) :
    ∀ (k : Nat) (rest : List α),
      insertionDedupAux seen (List.replicate k c ++ rest) = insertionDedupAux seen rest := by
  intro k
  induction k with
  | zero => intro rest; simp
  | succ k ih =>
    intro rest
    simp only [List.replicate_succ, List.cons_append, insertionDedupAux, if_pos hc]
    exact ih rest

theorem insertionDedup_cons {α : Type} [DecidableEq α] (a : α) (l : List α) :
    insertionDedup (a :: l) = a :: insertionDedupAux [a] l := by
  show insertionDedupAux [] (a :: l) = _
  simp [insertionDedupAux]

theorem insertionDedup_flatMap_replicate {α : Type} [DecidableEq α] :
    ∀ (labels : List α) (k : α → Nat), labels.Nodup → (∀ c ∈ labels, 1 ≤ k c) →
      insertionDedup (labels.flatMap (fun c => List.replicate (k c) c)) = labels := by
  intro labels
  induction labels with
  | nil => intro k _ _; rfl
  | cons c rest ih =>
    intro k hnd hk
    have hkc := hk c (by simp)
    obtain ⟨k1, hk1⟩ : ∃ k1, k c = k1 + 1 := ⟨k c - 1, by omega⟩
    simp only [List.flatMap_cons, hk1, List.replicate_succ, List.cons_append]
    rw [insertionDedup_cons]
    congr 1
    rw [insertionDedupAux_replicate_mem c [c] (by simp)]
    have hcrest : ∀ x ∈ rest.flatMap (fun c2 => List.replicate (k c2) c2), x ∈ [c] ↔ x ∈ ([] : List α) := by
      intro x hx
      rcases List.mem_flatMap.mp hx with ⟨c2, hc2, hxc2⟩
      have hx2 : x = c2 := (List.eq_of_mem_replicate hxc2)
      subst hx2
      have hne : x ≠ c := by
        rintro rfl
        exact (List.nodup_cons.mp hnd).1 hc2
      simp [hne]
    rw [insertionDedupAux_congr _ [c] [] hcrest]
    exact ih k (List.nodup_cons.mp hnd).2 (fun c2 hc2 => hk c2 (by simp [hc2]))

theorem filter_flatMap {α β : Type} (p : β → Bool) (F : α → List β) :
    ∀ l : List α, (l.flatMap F).filter p = l.flatMap (fun c => (F c).filter p) := by
  intro l
  induction l with
  | nil => rfl
  | cons a t ih =>
    simp only [List.flatMap_cons, List.filter_append, ih]

theorem flatMap_eq_single {α β : Type} [DecidableEq α] {F : α → List β} :
    ∀ {labels : List α} {c : α}, labels.Nodup → c ∈ labels →
      (∀ c2 ∈ labels, c2 ≠ c → F c2 = []) → labels.flatMap F = F c := by
  intro labels
  induction labels with
  | nil => intro c _ hc; simp at hc
  | cons a rest ih =>
    intro c hnd hc hz
    simp only [List.flatMap_cons]
    rcases List.mem_cons.mp hc with rfl | hc
    · have hrest : ∀ c2 ∈ rest, F c2 = [] := by
        intro c2 hc2
        refine hz c2 (by simp [hc2]) ?_
        rintro rfl
        exact (List.nodup_cons.mp hnd).1 hc2
      have : rest.flatMap F = [] := by
        rw [List.flatMap_eq_nil_iff]
        exact hrest
      rw [this, List.append_nil]
    · have ha : F a = [] := hz a (by simp) (by
        rintro rfl
        exact (List.nodup_cons.mp hnd).1 hc)
      rw [ha, List.nil_append]
      exact ih (List.nodup_cons.mp hnd).2 hc (fun c2 hc2 => hz c2 (by simp [hc2]))

theorem geneKey_of_values_eq {f : Gene → Gene} (hval : ∀ g, (f g).values = g.values)
    (g : Gene) : geneKey (f g) = geneKey g := by
  unfold geneKey
  rw [hval]

theorem geneLe_of_values_eq {f : Gene → Gene} (hval : ∀ g, (f g).values = g.values)
    (a b : Gene) : geneLe (f a) (f b) = geneLe a b := by
  unfold geneLe
  rw [geneKey_of_values_eq hval, geneKey_of_values_eq hval]

theorem geneLe_total (a b : Gene) : geneLe a b = true ∨ geneLe b a = true := by
  unfold geneLe
  cases geneKey a <;> cases geneKey b <;> simp
  exact le_total _ _

theorem geneLe_trans_num {a b c : Gene}
    (ha : ∃ q : ℚ, geneKey a = .num q) (hb : ∃ q : ℚ, geneKey b = .num q)
    (hc : ∃ q : ℚ, geneKey c = .num q)
    (hab : geneLe a b = true) (hbc : geneLe b c = true) : geneLe a c = true := by
  obtain ⟨x, hx⟩ := ha
  obtain ⟨y, hy⟩ := hb
  obtain ⟨z, hz⟩ := hc
  unfold geneLe at hab hbc ⊢
  rw [hx, hy] at hab
  rw [hy, hz] at hbc
  rw [hx, hz]
  have hab2 : x ≤ y := by simpa using hab
  have hbc2 : y ≤ z := by simpa using hbc
  simpa using le_trans hab2 hbc2

theorem sortGenes_pairwise {l : List Gene}
    (hkeys : ∀ g ∈ l, ∃ q : ℚ, geneKey g = .num q) :
    (sortGenes l).Pairwise (fun a b => geneLe a b = true) := by
  refine pairwise_insertionSortBy (fun g => ∃ q : ℚ, geneKey g = .num q) ?_ ?_ hkeys
  · intro a b _ _
    exact geneLe_total a b
  · intro a b c ha hb hc hab hbc
    exact geneLe_trans_num ha hb hc hab hbc

theorem groupSort_eq_flatMap (l : List Gene) :
    groupSortNoCollision l = (insertionDedup (l.map (fun g => g.category))).flatMap
      (fun c => sortGenes (l.filter (fun g => g.category == c))) := by
  unfold groupSortNoCollision
  refine flatMap_congr_mem ?_
  intro c _
  simp only []
  split
  · rename_i he
    rw [List.isEmpty_iff.mp he]
    rfl
  · rfl

theorem mem_sortGenes_filter {l : List Gene} {c : Cell} {x : Gene}
    (hx : x ∈ sortGenes (l.filter (fun g => g.category == c))) :
    x.category = c ∧ x ∈ l := by
  have hmem := (insertionSortBy_perm geneLe _).mem_iff.mp hx
  rcases List.mem_filter.mp hmem with ⟨hl, hcat⟩
  exact ⟨by simpa using hcat, hl⟩

theorem map_cat_sortGenes_filter (l : List Gene) (c : Cell) :
    (sortGenes (l.filter (fun g => g.category == c))).map (fun g => g.category) =
      List.replicate (sortGenes (l.filter (fun g => g.category == c))).length c := by
  rw [List.eq_replicate_iff]
  refine ⟨by simp, ?_⟩
  intro b hb
  rcases List.mem_map.mp hb with ⟨g, hg, rfl⟩
  exact (mem_sortGenes_filter hg).1

theorem filter_cat_ne_nil {l : List Gene} {c : Cell}
    (hc : c ∈ insertionDedup (l.map (fun g => g.category))) :
    l.filter (fun g => g.category == c) ≠ [] := by
  rw [mem_insertionDedup] at hc
  rcases List.mem_map.mp hc with ⟨g, hg, rfl⟩
  intro hnil
  have hmem : g ∈ l.filter (fun g2 => g2.category == g.category) :=
    List.mem_filter.mpr ⟨hg, by simp⟩
  rw [hnil] at hmem
  simp at hmem

/-- Regrouping and re-sorting an already grouped-and-sorted gene list — even
after a transformation that preserves categories and values — is the
identity, provided the sort keys are plain numbers (a consistent
comparator). -/
theorem groupSort_map_fixed (f : Gene → Gene) (l : List Gene)
    (hcat : ∀ g, (f g).category = g.category)
    (hval : ∀ g, (f g).values = g.values)
    (hkeys : ∀ g ∈ l, ∃ q : ℚ, geneKey g = .num q) :
    groupSortNoCollision ((groupSortNoCollision l).map f) = (groupSortNoCollision l).map f := by
  have hS := groupSort_eq_flatMap l
  have hmapcat : ((groupSortNoCollision l).map f).map (fun g => g.category) =
      (groupSortNoCollision l).map (fun g => g.category) := by
    rw [List.map_map]
    exact List.map_congr_left (fun g _ => hcat g)
  have hScat : (groupSortNoCollision l).map (fun g => g.category) =
      (insertionDedup (l.map (fun g => g.category))).flatMap
        (fun c => List.replicate (sortGenes (l.filter (fun g => g.category == c))).length c) := by
    rw [hS, List.map_flatMap]
    exact flatMap_congr_mem (fun c _ => map_cat_sortGenes_filter l c)
  have hDnodup : (insertionDedup (l.map (fun g => g.category))).Nodup :=
    nodup_insertionDedup _
  have hklen : ∀ c ∈ insertionDedup (l.map (fun g => g.category)),
      1 ≤ (sortGenes (l.filter (fun g => g.category == c))).length := by
    intro c hc
    have hlen := (insertionSortBy_perm geneLe (l.filter (fun g => g.category == c))).length_eq
    have hfne := filter_cat_ne_nil hc
    have hnz : (l.filter (fun g => g.category == c)).length ≠ 0 :=
      fun h0 => hfne (List.length_eq_zero.mp h0)
    show 1 ≤ (insertionSortBy geneLe _).length
    omega
  have hD2 : insertionDedup (((groupSortNoCollision l).map f).map (fun g => g.category)) =
      insertionDedup (l.map (fun g => g.category)) := by
    rw [hmapcat, hScat]
    exact insertionDedup_flatMap_replicate _ _ hDnodup hklen
  have hfilter : ∀ c ∈ insertionDedup (l.map (fun g => g.category)),
      ((groupSortNoCollision l).map f).filter (fun g => g.category == c) =
        (sortGenes (l.filter (fun g => g.category == c))).map f := by
    intro c hc
    rw [List.filter_map]
    have hpf : ((fun g => g.category == c) ∘ f) = (fun g => g.category == c) := by
      funext g
      simp [Function.comp, hcat]
    rw [hpf]
    congr 1
    rw [hS, filter_flatMap]
    have hcomp : ∀ c2 ∈ insertionDedup (l.map (fun g => g.category)),
        (sortGenes (l.filter (fun g => g.category == c2))).filter (fun g => g.category == c) =
          if c2 = c then sortGenes (l.filter (fun g => g.category == c2)) else [] := by
      intro c2 _
      split
      · rename_i heq
        subst heq
        apply List.filter_eq_self.mpr
        intro g hg
        simp [(mem_sortGenes_filter hg).1]
      · rename_i hne
        apply List.filter_eq_nil_iff.mpr
        intro g hg
        simp [(mem_sortGenes_filter hg).1, hne]
    rw [flatMap_congr_mem hcomp]
    have := flatMap_eq_single (F := fun c2 =>
        if c2 = c then sortGenes (l.filter (fun g => g.category == c2)) else [])
      hDnodup hc (fun c2 _ hne => if_neg hne)
    rw [this]
    simp
  calc groupSortNoCollision ((groupSortNoCollision l).map f)
      = (insertionDedup (((groupSortNoCollision l).map f).map (fun g => g.category))).flatMap
          (fun c => sortGenes (((groupSortNoCollision l).map f).filter
            (fun g => g.category == c))) := groupSort_eq_flatMap _
    _ = (insertionDedup (l.map (fun g => g.category))).flatMap
          (fun c => sortGenes (((groupSortNoCollision l).map f).filter
            (fun g => g.category == c))) := by rw [hD2]
    _ = (insertionDedup (l.map (fun g => g.category))).flatMap
          (fun c => (sortGenes (l.filter (fun g => g.category == c))).map f) := by
        refine flatMap_congr_mem ?_
        intro c hc
        rw [hfilter c hc]
        apply insertionSortBy_of_pairwise
        have hpw : (sortGenes (l.filter (fun g => g.category == c))).Pairwise
            (fun a b => geneLe a b = true) := by
          apply sortGenes_pairwise
          intro g hg
          exact hkeys g (List.mem_filter.mp hg).1
        refine List.pairwise_map.mpr ?_
        exact hpw.imp (fun hab => by rw [geneLe_of_values_eq hval]; exact hab)
    _ = ((insertionDedup (l.map (fun g => g.category))).flatMap
          (fun c => sortGenes (l.filter (fun g => g.category == c)))).map f := by
        rw [List.map_flatMap]
    _ = (groupSortNoCollision l).map f := by rw [← hS]

/-! ## Matching facts for the export projection's reconstructed headers -/

theorem mk_data (s : String) : String.mk s.data = s := rfl

theorem ciSame_refl (l : List Char) : ciSame l l :=
  List.forall₂_same.mpr (fun _ _ => rfl)

theorem matchHeader_fKey (n : String) (hne : n.data ≠ [])
    (hdot : ∀ c ∈ n.data, dotOk c = true) :
    matchHeader log2fcMarker ("Log2FC (" ++ n ++ ")") = some n := by
  have hdata : ("Log2FC (" ++ n ++ ")").data =
      "Log2FC".data ++ ([' '] ++ ('(' :: (n.data ++ [')']))) := by
    simp [String.data_append]
  have hbuild := matchHeader_build log2fcMarker "Log2FC".data [' '] n.data
    ("Log2FC (" ++ n ++ ")") hdata (ciSame_refl _) (by decide) hne hdot
  rwa [mk_data] at hbuild

theorem matchHeader_none_head (m : Char) (ms : List Char) (c : Char) (cs : List Char)
    (s : String) (hs : s.data = c :: cs) (hne : ¬c.toLower = m.toLower) :
    matchHeader (m :: ms) s = none := by
  unfold matchHeader
  rw [hs]
  simp [stripCi, hne]

theorem matchHeader_none_second (m1 m2 : Char) (ms : List Char) (c1 c2 : Char)
    (cs : List Char) (s : String) (hs : s.data = c1 :: c2 :: cs)
    (h1 : c1.toLower = m1.toLower) (hne : ¬c2.toLower = m2.toLower) :
    matchHeader (m1 :: m2 :: ms) s = none := by
  unfold matchHeader
  rw [hs]
  simp [stripCi, h1, hne]

theorem pKey_data (n : String) :
    ("P-value (" ++ n ++ ")").data = 'P' :: '-' :: ("value (".data ++ (n.data ++ [')'])) := by
  simp [String.data_append]

theorem fKey_data (n : String) :
    ("Log2FC (" ++ n ++ ")").data = 'L' :: ("og2FC (".data ++ (n.data ++ [')'])) := by
  simp [String.data_append]

theorem matchHeader_log2fc_pKey (n : String) :
    matchHeader log2fcMarker ("P-value (" ++ n ++ ")") = none :=
  matchHeader_none_head 'L' _ 'P' _ _ (pKey_data n) (by decide)

theorem matchHeader_pvalue_fKey (n : String) :
    matchHeader pValueMarker ("Log2FC (" ++ n ++ ")") = none :=
  matchHeader_none_head 'P' _ 'L' _ _ (fKey_data n) (by decide)

theorem matchHeader_pvalue_pKey (n : String) :
    matchHeader pValueMarker ("P-value (" ++ n ++ ")") = none :=
  matchHeader_none_second 'P' ' ' _ 'P' '-' _ _ (pKey_data n) (by decide) (by decide)

theorem string_ne_of_data_ne {a b : String} (h : a.data ≠ b.data) : ¬a = b := by
  intro hc
  exact h (by rw [hc])

theorem beq_false_of_data_ne {a b : String} (h : a.data ≠ b.data) : (a == b) = false := by
  rw [beq_eq_false_iff_ne]
  exact string_ne_of_data_ne h

theorem fKey_inj {a b : String} (h : ("Log2FC (" ++ a ++ ")") = ("Log2FC (" ++ b ++ ")")) :
    a = b := by
  have hd := congrArg String.data h
  rw [fKey_data, fKey_data] at hd
  simp only [List.cons.injEq, true_and] at hd
  have hd2 := List.append_cancel_left hd
  have hd3 := List.append_cancel_right hd2
  cases a
  cases b
  exact congrArg String.mk hd3

/-! ## Looking cells up in an export row -/

theorem cons_ne_cons_of_head {c1 c2 : Char} {t1 t2 : List Char} (h : c1 ≠ c2) :
    (c1 :: t1) ≠ (c2 :: t2) := by
  intro hc
  injection hc with h1 _
  exact h h1

theorem geneid_beq_fKey (n : String) :
    (("Gene ID" : String) == ("Log2FC (" ++ n ++ ")")) = false := by
  apply beq_false_of_data_ne
  rw [fKey_data, show "Gene ID".data = 'G' :: "ene ID".data from rfl]
  exact cons_ne_cons_of_head (by decide)

theorem category_beq_fKey (n : String) :
    (("Category" : String) == ("Log2FC (" ++ n ++ ")")) = false := by
  apply beq_false_of_data_ne
  rw [fKey_data, show "Category".data = 'C' :: "ategory".data from rfl]
  exact cons_ne_cons_of_head (by decide)

theorem find?_zip_fKey :
    ∀ (ks : List String) (vs : List Cell) (i : Nat) (n : String) (c : Cell),
      ks.Nodup → ks[i]? = some n → vs[i]? = some c →
      List.find? (fun p => p.1 == ("Log2FC (" ++ n ++ ")"))
          ((ks.zip vs).map (fun p => ("Log2FC (" ++ p.1 ++ ")", p.2))) =
        some ("Log2FC (" ++ n ++ ")", c) := by
  intro ks
  induction ks with
  | nil =>
    intro vs i n c _ hn _
    simp at hn
  | cons k kt ih =>
    intro vs i n c hnd hn hv
    cases vs with
    | nil => simp at hv
    | cons v vt =>
      cases i with
      | zero =>
        simp only [List.getElem?_cons_zero, Option.some.injEq] at hn hv
        subst hn
        subst hv
        simp [List.find?]
      | succ j =>
        simp only [List.getElem?_cons_succ] at hn hv
        have hkn : k ≠ n := by
          rintro rfl
          exact (List.nodup_cons.mp hnd).1 (List.getElem?_mem hn)
        have hbeq : (("Log2FC (" ++ k ++ ")") == ("Log2FC (" ++ n ++ ")")) = false := by
          rw [beq_eq_false_iff_ne]
          intro hc
          exact hkn (fKey_inj hc)
        simp only [List.zip_cons_cons, List.map_cons, List.find?]
        rw [hbeq]
        exact ih vt j n c (List.nodup_cons.mp hnd).2 hn hv

theorem getCell_cons_ne (k0 : String) (c0 : Cell) (row : Row) (k : String)
    (h : (k0 == k) = false) : getCell ((k0, c0) :: row) k = getCell row k := by
  unfold getCell
  simp [List.find?, h]

theorem getCell_append_left (row1 row2 : Row) (k : String) (p : String × Cell)
    (h : row1.find? (fun q => q.1 == k) = some p) :
    getCell (row1 ++ row2) k = p.2 := by
  unfold getCell
  rw [List.find?_append, h]
  rfl

theorem getCell_exportRow_id (names : List String) (g : Gene) :
    getCell (exportRow names g) "Gene ID" = g.id := by
  unfold getCell exportRow
  simp [List.find?]

theorem getCell_exportRow_category (names : List String) (g : Gene) :
    getCell (exportRow names g) "Category" = g.category := by
  unfold getCell exportRow
  have h1 : (("Gene ID" : String) == "Category") = false := by decide
  simp [List.find?, h1]

theorem getCell_exportRow_fKey (names : List String) (g : Gene) (i : Nat) (n : String)
    (v : JsVal) (hnd : names.Nodup) (hn : names[i]? = some n)
    (hv : g.values[i]? = some v) :
    getCell (exportRow names g) ("Log2FC (" ++ n ++ ")") = exportCell v := by
  have hv2 : (g.values.map exportCell)[i]? = some (exportCell v) := by
    rw [List.getElem?_map, hv]
    rfl
  have hfind := find?_zip_fKey names (g.values.map exportCell) i n (exportCell v) hnd hn hv2
  have hrow : exportRow names g = ("Gene ID", g.id) :: (("Category", g.category) ::
      (((names.zip (g.values.map exportCell)).map
          (fun p => ("Log2FC (" ++ p.1 ++ ")", p.2))) ++
        ((names.zip (g.pValues.map exportCell)).map
          (fun p => ("P-value (" ++ p.1 ++ ")", p.2))))) := rfl
  rw [hrow, getCell_cons_ne _ _ _ _ (geneid_beq_fKey n),
    getCell_cons_ne _ _ _ _ (category_beq_fKey n)]
  exact getCell_append_left _ _ _ _ hfind

theorem extractGeneId_exportRow (names : List String) (g : Gene)
    (ht : truthy g.id = true) : extractGeneId (exportRow names g) = g.id := by
  unfold extractGeneId jsOr
  rw [getCell_exportRow_id, if_pos ht]

theorem parseCell_exportCell_num (q : ℚ) :
    parseCell (exportCell (JsVal.num q)) = JsVal.num q := rfl

theorem exportRow_keys (names : List String) (g : Gene)
    (hlen : g.values.length = names.length) :
    (exportRow names g).map Prod.fst =
      "Gene ID" :: "Category" :: (names.map (fun n => "Log2FC (" ++ n ++ ")") ++
        ((names.zip (g.pValues.map exportCell)).map (fun p => "P-value (" ++ p.1 ++ ")"))) := by
  unfold exportRow
  simp only [List.cons_append, List.map_cons, List.map_append, List.map_map]
  have hblockF : (names.zip (g.values.map exportCell)).map
      (Prod.fst ∘ fun p => ("Log2FC (" ++ p.1 ++ ")", p.2)) =
      names.map (fun n => "Log2FC (" ++ n ++ ")") := by
    rw [show (Prod.fst ∘ fun p : String × Cell => ("Log2FC (" ++ p.1 ++ ")", p.2)) =
        ((fun n => "Log2FC (" ++ n ++ ")") ∘ Prod.fst) from rfl]
    rw [← List.map_map]
    rw [List.map_fst_zip names (g.values.map exportCell) (by simp [hlen])]
  have hblockP : (names.zip (g.pValues.map exportCell)).map
      (Prod.fst ∘ fun p => ("P-value (" ++ p.1 ++ ")", p.2)) =
      (names.zip (g.pValues.map exportCell)).map (fun p => "P-value (" ++ p.1 ++ ")") := rfl
  rw [hblockF, hblockP]
  simp

/-! ## Claim C10 -/

def c10genes : List Gene :=
  [⟨.str "A", .num (mkRat 5 1), [.num (mkRat 1 1)], []⟩,
   ⟨.str "B", .num (mkRat 5 1), [.num (mkRat 2 1)], []⟩,
   ⟨.str "C", .str "5", [.num (mkRat 3 1)], []⟩]

/-- C10 counterexample: grouping is NOT a permutation of the validated gene
list in general.  With categories number 5, number 5 and string "5", the
`Set` of raw categories keeps both values, but the grouping object coerces
both to the key "5": the two-gene group is overwritten by the one-gene
group, which the sorting loop then appends once per raw category — two genes
are dropped and one is duplicated (output length 2 on a three-gene input). -/
theorem claim_c10_counterexample :
    ¬(sortedGeneData c10genes).Perm c10genes :=
  fun h => absurd h.length_eq (by decide)

/-- C10 (amended): when no category is `NaN` and distinct category values
have distinct JavaScript string coercions — so no two raw categories collide
in the grouping object — grouping by category, per-group sorting, and
concatenation is a permutation of the validated gene list: it neither drops
nor duplicates a gene. -/
theorem claim_c10_grouping_permutation (genes : List Gene)
    (hself : ∀ g ∈ genes, strictEq g.category g.category = true)
    (hinj : ∀ g1 ∈ genes, ∀ g2 ∈ genes,
      jsKey g1.category = jsKey g2.category → g1.category = g2.category) :
    (sortedGeneData genes).Perm genes := by
  rw [sortedGeneData_eq_noCollision genes hself hinj]
  exact groupSort_perm genes

def c10wgenes : List Gene :=
  [⟨.str "x", .str "met", [.num (mkRat 2 1)], []⟩,
   ⟨.str "y", .str "lip", [.num (mkRat 1 1)], []⟩,
   ⟨.str "z", .str "met", [.num (mkRat 3 1)], []⟩]

/-- Witness for C10: a three-gene list over two distinct string categories. -/
theorem claim_c10_witness :
    (∀ g ∈ c10wgenes, strictEq g.category g.category = true) ∧
    (sortedGeneData c10wgenes).Perm c10wgenes :=
  ⟨by decide, claim_c10_grouping_permutation c10wgenes (by decide) (by decide)⟩

/-! ## Facts about the genes and comparison names a successful import produces -/

/-- Whether a stored value slot holds a plain number. -/
def isNum : JsVal → Bool
  | .num _ => true
  | _ => false

/-- The composite effect of one export / re-import round trip on a gene whose
values are plain numbers: the p-value columns are lost (the exported
`P-value (…)` headers do not match the `/^P value\s*\((.+)\)$/i` pattern on
re-import), everything else survives. -/
def stripPValues (g : Gene) : Gene := { g with pValues := [] }

theorem normId_normId (c : Cell) : normId (normId c) = normId c := by
  cases c <;> simp [normId, trimJs_trimJs]

theorem geneDataOf_facts {rows : List Row} {g : Gene} (hg : g ∈ geneDataOf rows) :
    truthy g.id = true ∧ normId g.id = g.id ∧ truthy g.category = true ∧
      g.values.length = (detectComparisons (headersOf rows)).length ∧
      g.pValues.length = (detectPValueCols (headersOf rows)).length := by
  simp only [geneDataOf] at hg
  rcases List.mem_filterMap.mp hg with ⟨row, _, hsome⟩
  by_cases hk : keepRow row
  · rw [if_pos hk] at hsome
    have hgeq := Option.some.inj hsome
    subst hgeq
    refine ⟨hk, normId_normId (extractGeneId row), ?_, by simp [mkGene], by simp [mkGene]⟩
    simp only [mkGene]
    cases hcc : categoryColOf (headersOf rows) with
    | none =>
      show truthy (Cell.str "Uncategorized") = true
      decide
    | some cc =>
      show truthy (if truthy (getCell row cc) = true then getCell row cc
        else Cell.str "Uncategorized") = true
      by_cases ht : truthy (getCell row cc) = true
      · rw [if_pos ht]
        exact ht
      · rw [if_neg ht]
        decide
  · rw [if_neg hk] at hsome
    exact absurd hsome (by simp)

theorem shortNamesOf_length (headers : List String) :
    (shortNamesOf headers).length = (detectComparisons headers).length := by
  unfold shortNamesOf
  exact List.length_map _ _

theorem shortNamesOf_facts {headers : List String} {n : String}
    (hn : n ∈ shortNamesOf headers) :
    trimJs n = n ∧ ∀ c ∈ n.data, dotOk c = true := by
  unfold shortNamesOf at hn
  rcases List.mem_map.mp hn with ⟨h, hh, hdef⟩
  have hsome : (matchHeader log2fcMarker h).isSome = true := by
    have := (List.mem_filter.mp hh).2
    simpa [detectComparisons] using this
  obtain ⟨m, hm⟩ := Option.isSome_iff_exists.mp hsome
  simp only [hm] at hdef
  subst hdef
  refine ⟨trimJs_trimJs m, ?_⟩
  intro c hc
  exact (matchHeader_some_inv hm).2 c (trimJs_chars hc)

/-! ## The schema a re-imported export computes -/

theorem filter_cons_false {α : Type} (p : α → Bool) (a : α) (l : List α)
    (h : p a = false) : (a :: l).filter p = l.filter p := by
  simp [List.filter_cons, h]

theorem headersOf_cons (r : Row) (rs : List Row) :
    headersOf (r :: rs) = r.map Prod.fst := rfl

theorem reimport_detectComparisons (names pkeys : List String)
    (hne : ∀ n ∈ names, n.data ≠ [])
    (hdot : ∀ n ∈ names, ∀ c ∈ n.data, dotOk c = true)
    (hp : ∀ k ∈ pkeys, ∃ m : String, k = "P-value (" ++ m ++ ")") :
    detectComparisons ("Gene ID" :: "Category" ::
        (names.map (fun n => "Log2FC (" ++ n ++ ")") ++ pkeys)) =
      names.map (fun n => "Log2FC (" ++ n ++ ")") := by
  unfold detectComparisons
  rw [filter_cons_false _ _ _ (by decide), filter_cons_false _ _ _ (by decide),
    List.filter_append]
  have h1 : (names.map (fun n => "Log2FC (" ++ n ++ ")")).filter
      (fun h => (matchHeader log2fcMarker h).isSome) =
      names.map (fun n => "Log2FC (" ++ n ++ ")") := by
    apply List.filter_eq_self.mpr
    intro x hx
    rcases List.mem_map.mp hx with ⟨n, hn, rfl⟩
    rw [matchHeader_fKey n (hne n hn) (hdot n hn)]
    rfl
  have h2 : pkeys.filter (fun h => (matchHeader log2fcMarker h).isSome) = [] := by
    apply List.filter_eq_nil_iff.mpr
    intro k hk
    rcases hp k hk with ⟨m, rfl⟩
    simp [matchHeader_log2fc_pKey]
  rw [h1, h2, List.append_nil]

theorem reimport_shortNames (names pkeys : List String)
    (hne : ∀ n ∈ names, n.data ≠ [])
    (hdot : ∀ n ∈ names, ∀ c ∈ n.data, dotOk c = true)
    (htrim : ∀ n ∈ names, trimJs n = n)
    (hp : ∀ k ∈ pkeys, ∃ m : String, k = "P-value (" ++ m ++ ")") :
    shortNamesOf ("Gene ID" :: "Category" ::
        (names.map (fun n => "Log2FC (" ++ n ++ ")") ++ pkeys)) = names := by
  unfold shortNamesOf
  rw [reimport_detectComparisons names pkeys hne hdot hp, List.map_map]
  refine Eq.trans (List.map_congr_left ?_) (List.map_id names)
  intro n hn
  have hm := matchHeader_fKey n (hne n hn) (hdot n hn)
  show (match matchHeader log2fcMarker ("Log2FC (" ++ n ++ ")") with
      | some m => trimJs m
      | none => "Log2FC (" ++ n ++ ")") = n
  rw [hm]
  exact htrim n hn

theorem reimport_detectPValueCols (names pkeys : List String)
    (hp : ∀ k ∈ pkeys, ∃ m : String, k = "P-value (" ++ m ++ ")") :
    detectPValueCols ("Gene ID" :: "Category" ::
        (names.map (fun n => "Log2FC (" ++ n ++ ")") ++ pkeys)) = [] := by
  unfold detectPValueCols
  rw [filter_cons_false _ _ _ (by decide), filter_cons_false _ _ _ (by decide),
    List.filter_append]
  have h1 : (names.map (fun n => "Log2FC (" ++ n ++ ")")).filter
      (fun h => (matchHeader pValueMarker h).isSome) = [] := by
    apply List.filter_eq_nil_iff.mpr
    intro k hk
    rcases List.mem_map.mp hk with ⟨n, _, rfl⟩
    simp [matchHeader_pvalue_fKey]
  have h2 : pkeys.filter (fun h => (matchHeader pValueMarker h).isSome) = [] := by
    apply List.filter_eq_nil_iff.mpr
    intro k hk
    rcases hp k hk with ⟨m, rfl⟩
    simp [matchHeader_pvalue_pKey]
  rw [h1, h2]
  rfl

theorem reimport_categoryCol (rest : List String) :
    categoryColOf ("Gene ID" :: "Category" :: rest) = some "Category" := by
  unfold categoryColOf
  rw [find?_cons_false _ _ _ (by decide), find?_cons_true _ _ _ (by decide)]

/-! ## Re-importing an exported row reproduces the gene (minus p-values) -/

theorem values_exportRow (names : List String) (g : Gene) (hnd : names.Nodup)
    (hlen : g.values.length = names.length)
    (hnum : ∀ v ∈ g.values, isNum v = true) :
    (names.map (fun n => "Log2FC (" ++ n ++ ")")).map
        (fun c => parseCell (getCell (exportRow names g) c)) = g.values := by
  rw [List.map_map]
  apply List.ext_getElem
  · simp [hlen]
  intro i h1 h2
  have hbn : i < names.length := by simpa using h1
  simp only [List.getElem_map, Function.comp_apply]
  have hn : names[i]? = some names[i] := List.getElem?_eq_getElem hbn
  have hv : g.values[i]? = some g.values[i] := List.getElem?_eq_getElem h2
  rw [getCell_exportRow_fKey names g i names[i] g.values[i] hnd hn hv]
  have hnumi := hnum g.values[i] (List.getElem_mem h2)
  cases hq : g.values[i] with
  | null => rw [hq] at hnumi; exact absurd hnumi (by decide)
  | nan => rw [hq] at hnumi; exact absurd hnumi (by decide)
  | num q => rfl

theorem keepRow_exportRow (names : List String) (g : Gene)
    (hid : truthy g.id = true) (hidn : normId g.id = g.id) :
    keepRow (exportRow names g) = true := by
  unfold keepRow
  rw [extractGeneId_exportRow names g hid, hidn]
  exact hid

theorem mkGene_exportRow (names : List String) (g : Gene)
    (hnd : names.Nodup) (hlen : g.values.length = names.length)
    (hid : truthy g.id = true) (hidn : normId g.id = g.id)
    (hcat : truthy g.category = true)
    (hnum : ∀ v ∈ g.values, isNum v = true) :
    mkGene (names.map (fun n => "Log2FC (" ++ n ++ ")")) [] (some "Category")
        (exportRow names g) = stripPValues g := by
  simp only [mkGene, stripPValues]
  rw [extractGeneId_exportRow names g hid, hidn, getCell_exportRow_category,
    if_pos hcat, values_exportRow names g hnd hlen hnum, List.map_nil]

theorem filterMap_congr2 {α β : Type} {f g : α → Option β} :
    ∀ {l : List α}, (∀ a ∈ l, f a = g a) → l.filterMap f = l.filterMap g := by
  intro l
  induction l with
  | nil => intro _; rfl
  | cons a t ih =>
    intro h
    rw [List.filterMap_cons, List.filterMap_cons, h a (by simp),
      ih (fun b hb => h b (by simp [hb]))]

theorem filterMap_some_map {α β : Type} (f : α → β) :
    ∀ l : List α, l.filterMap (fun a => some (f a)) = l.map f := by
  intro l
  induction l with
  | nil => rfl
  | cons a t ih => simp only [List.filterMap_cons, List.map_cons, ih]

theorem geneDataOf_exportRows (names : List String) (g0 : Gene) (gs : List Gene)
    (hnd : names.Nodup) (hne1 : ∀ n ∈ names, n.data ≠ [])
    (hdot : ∀ n ∈ names, ∀ c ∈ n.data, dotOk c = true)
    (hglen : ∀ g ∈ g0 :: gs, g.values.length = names.length)
    (hid : ∀ g ∈ g0 :: gs, truthy g.id = true)
    (hidn : ∀ g ∈ g0 :: gs, normId g.id = g.id)
    (hcat : ∀ g ∈ g0 :: gs, truthy g.category = true)
    (hnum : ∀ g ∈ g0 :: gs, ∀ v ∈ g.values, isNum v = true) :
    geneDataOf ((g0 :: gs).map (exportRow names)) = (g0 :: gs).map stripPValues := by
  have hp0 : ∀ k ∈ (names.zip (g0.pValues.map exportCell)).map
      (fun p => "P-value (" ++ p.1 ++ ")"), ∃ m : String, k = "P-value (" ++ m ++ ")" := by
    intro k hk
    rcases List.mem_map.mp hk with ⟨p, _, rfl⟩
    exact ⟨p.1, rfl⟩
  have hH : headersOf ((g0 :: gs).map (exportRow names)) =
      "Gene ID" :: "Category" :: (names.map (fun n => "Log2FC (" ++ n ++ ")") ++
        (names.zip (g0.pValues.map exportCell)).map
          (fun p => "P-value (" ++ p.1 ++ ")")) := by
    rw [List.map_cons, headersOf_cons]
    exact exportRow_keys names g0 (hglen g0 (by simp))
  simp only [geneDataOf]
  rw [hH, reimport_detectComparisons names _ hne1 hdot hp0,
    reimport_detectPValueCols names _ hp0, reimport_categoryCol,
    List.filterMap_map]
  have hcongr : ∀ g ∈ g0 :: gs,
      ((fun row => if keepRow row then
          some (mkGene (names.map (fun n => "Log2FC (" ++ n ++ ")")) []
            (some "Category") row)
        else none) ∘ exportRow names) g = some (stripPValues g) := by
    intro g hg
    simp only [Function.comp_apply]
    rw [if_pos (keepRow_exportRow names g (hid g hg) (hidn g hg)),
      mkGene_exportRow names g hnd (hglen g hg) (hid g hg) (hidn g hg)
        (hcat g hg) (hnum g hg)]
  rw [filterMap_congr2 hcongr, filterMap_some_map]

theorem geneKey_num {g : Gene} {q : ℚ} (h : g.values.head? = some (JsVal.num q)) :
    geneKey g = JsVal.num q := by
  unfold geneKey
  rw [h]

/-! ## Claim C4 -/

def orEmptyDataset : Except PipeError Dataset → Dataset
  | .ok d => d
  | .error _ => datasetOf []

def c4rows : List Row :=
  [[("Gene ID", Cell.str "G1"), ("Log2FC (X)", Cell.num (mkRat 1 1))],
   [("Gene ID", Cell.str "G2")]]

def c4d : Dataset := orEmptyDataset (processExcelFile c4rows)

def c4d2 : Dataset := orEmptyDataset (processExcelFile (exportRows c4d))

/-- C4 counterexample: a dataset holding a `null` value (an empty cell on
import) does not survive the export / re-import round trip with the same
values: the null is exported as the placeholder string `N/A`, which
re-imports as `parseFloat("N/A") = NaN`, not as `null`.  Gene count and
categories do survive on this input, so it is exactly the "same values"
part of the claim that fails. -/
theorem claim_c4_counterexample :
    processExcelFile c4rows = Except.ok c4d ∧
    processExcelFile (exportRows c4d) = Except.ok c4d2 ∧
    c4d2.genes.length = c4d.genes.length ∧
    c4d2.genes.map (fun g => g.category) = c4d.genes.map (fun g => g.category) ∧
    ¬c4d2.genes.map (fun g => g.values) = c4d.genes.map (fun g => g.values) := by
  decide

/-- C4 (amended): for a successfully imported dataset all of whose stored
values are plain numbers (no nulls, no NaNs) and whose comparison display
names are nonempty and pairwise distinct, re-importing the export projection
through the same pipeline succeeds and reproduces the comparison names, the
gene count, and every gene's identifier, category, and values, in the same
order.  (The p-value columns are silently lost either way, because the
exported `P-value (…)` headers do not match the `P value` pattern of the
importer; and distinct category values must keep distinct string coercions,
because colliding categories make the string-keyed grouping object duplicate
genes, after which re-sorting the merged group reorders the values.) -/
theorem claim_c4_roundtrip_amended (rows : List Row) (d : Dataset)
    (hok : processExcelFile rows = Except.ok d)
    (hnum : ∀ g ∈ d.genes, ∀ v ∈ g.values, isNum v = true)
    (hne : ∀ n ∈ d.comparisons, n.data ≠ [])
    (hnd : d.comparisons.Nodup)
    (hinj : ∀ g1 ∈ geneDataOf rows, ∀ g2 ∈ geneDataOf rows,
      jsKey g1.category = jsKey g2.category → g1.category = g2.category) :
    ∃ d2, processExcelFile (exportRows d) = Except.ok d2 ∧
      d2.comparisons = d.comparisons ∧
      d2.genes.length = d.genes.length ∧
      d2.genes.map (fun g => g.id) = d.genes.map (fun g => g.id) ∧
      d2.genes.map (fun g => g.category) = d.genes.map (fun g => g.category) ∧
      d2.genes.map (fun g => g.values) = d.genes.map (fun g => g.values) := by
  obtain ⟨hdz, hr0, hh0, hc0, hg0⟩ := processExcelFile_ok_inv hok
  subst hdz
  have hselfL : ∀ g ∈ geneDataOf rows, strictEq g.category g.category = true :=
    fun g hg => strictEq_self_of_truthy (geneDataOf_category_truthy hg)
  have hbridge : sortedGeneData (geneDataOf rows) =
      groupSortNoCollision (geneDataOf rows) :=
    sortedGeneData_eq_noCollision (geneDataOf rows) hselfL hinj
  have hne2 : ∀ n ∈ shortNamesOf (headersOf rows), n.data ≠ [] := hne
  have hnd2 : (shortNamesOf (headersOf rows)).Nodup := hnd
  have hnum2 : ∀ g ∈ groupSortNoCollision (geneDataOf rows), ∀ v ∈ g.values,
      isNum v = true := by
    rw [← hbridge]
    exact hnum
  have hdot2 : ∀ n ∈ shortNamesOf (headersOf rows), ∀ c ∈ n.data, dotOk c = true :=
    fun n hn => (shortNamesOf_facts hn).2
  have htrim2 : ∀ n ∈ shortNamesOf (headersOf rows), trimJs n = n :=
    fun n hn => (shortNamesOf_facts hn).1
  have hperm := groupSort_perm (geneDataOf rows)
  have hlen_names : (shortNamesOf (headersOf rows)).length =
      (detectComparisons (headersOf rows)).length := shortNamesOf_length _
  have hsglen : (groupSortNoCollision (geneDataOf rows)).length ≠ 0 := by
    rw [hperm.length_eq]
    exact hg0
  obtain ⟨g0, gs, hcons⟩ : ∃ g0 gs, groupSortNoCollision (geneDataOf rows) = g0 :: gs := by
    cases hc : groupSortNoCollision (geneDataOf rows) with
    | nil => rw [hc] at hsglen; simp at hsglen
    | cons a l => exact ⟨a, l, rfl⟩
  have hgenes2 : (datasetOf rows).genes = g0 :: gs := by
    rw [datasetOf_genes, hbridge]
    exact hcons
  have hmemL : ∀ g ∈ g0 :: gs, g ∈ geneDataOf rows := by
    intro g hg
    apply hperm.mem_iff.mp
    rw [hcons]
    exact hg
  have hglen2 : ∀ g ∈ g0 :: gs, g.values.length = (shortNamesOf (headersOf rows)).length := by
    intro g hg
    rw [(geneDataOf_facts (hmemL g hg)).2.2.2.1, hlen_names]
  have hid2 : ∀ g ∈ g0 :: gs, truthy g.id = true :=
    fun g hg => (geneDataOf_facts (hmemL g hg)).1
  have hidn2 : ∀ g ∈ g0 :: gs, normId g.id = g.id :=
    fun g hg => (geneDataOf_facts (hmemL g hg)).2.1
  have hcat2 : ∀ g ∈ g0 :: gs, truthy g.category = true :=
    fun g hg => (geneDataOf_facts (hmemL g hg)).2.2.1
  have hnum3 : ∀ g ∈ g0 :: gs, ∀ v ∈ g.values, isNum v = true := by
    intro g hg
    apply hnum2 g
    rw [hcons]
    exact hg
  have hexp : exportRows (datasetOf rows) =
      (g0 :: gs).map (exportRow (shortNamesOf (headersOf rows))) := by
    show (datasetOf rows).genes.map (exportRow (datasetOf rows).comparisons) = _
    rw [hgenes2]
    rfl
  have hGDE : geneDataOf (exportRows (datasetOf rows)) = (g0 :: gs).map stripPValues := by
    rw [hexp]
    exact geneDataOf_exportRows (shortNamesOf (headersOf rows)) g0 gs hnd2 hne2 hdot2
      hglen2 hid2 hidn2 hcat2 hnum3
  have hp0 : ∀ k ∈ ((shortNamesOf (headersOf rows)).zip (g0.pValues.map exportCell)).map
      (fun p => "P-value (" ++ p.1 ++ ")"), ∃ m : String, k = "P-value (" ++ m ++ ")" := by
    intro k hk
    rcases List.mem_map.mp hk with ⟨p, _, rfl⟩
    exact ⟨p.1, rfl⟩
  have hH2 : headersOf (exportRows (datasetOf rows)) =
      "Gene ID" :: "Category" ::
        ((shortNamesOf (headersOf rows)).map (fun n => "Log2FC (" ++ n ++ ")") ++
          ((shortNamesOf (headersOf rows)).zip (g0.pValues.map exportCell)).map
            (fun p => "P-value (" ++ p.1 ++ ")")) := by
    rw [hexp, List.map_cons, headersOf_cons]
    exact exportRow_keys (shortNamesOf (headersOf rows)) g0 (hglen2 g0 (by simp))
  have hdc2 : detectComparisons (headersOf (exportRows (datasetOf rows))) =
      (shortNamesOf (headersOf rows)).map (fun n => "Log2FC (" ++ n ++ ")") := by
    rw [hH2]
    exact reimport_detectComparisons _ _ hne2 hdot2 hp0
  have hcond1 : ¬(exportRows (datasetOf rows)).length = 0 := by
    rw [hexp]
    simp
  have hcond2 : ¬(headersOf (exportRows (datasetOf rows))).length = 0 := by
    rw [hH2]
    simp
  have hcond3 : ¬(detectComparisons (headersOf (exportRows (datasetOf rows)))).length = 0 := by
    rw [hdc2, List.length_map, hlen_names]
    exact hc0
  have hcond4 : ¬(geneDataOf (exportRows (datasetOf rows))).length = 0 := by
    rw [hGDE]
    simp
  have hok2 : processExcelFile (exportRows (datasetOf rows)) =
      Except.ok (datasetOf (exportRows (datasetOf rows))) := by
    unfold processExcelFile
    rw [if_neg hcond1, if_neg hcond2, if_neg hcond3, if_neg hcond4]
  have hkeys : ∀ g ∈ geneDataOf rows, ∃ q : ℚ, geneKey g = JsVal.num q := by
    intro g hg
    have hlenz : g.values.length ≠ 0 := by
      rw [(geneDataOf_facts hg).2.2.2.1]
      exact hc0
    obtain ⟨v0, vt, hv0⟩ : ∃ v0 vt, g.values = v0 :: vt := by
      cases hc2 : g.values with
      | nil => rw [hc2] at hlenz; simp at hlenz
      | cons a l => exact ⟨a, l, rfl⟩
    have hnv0 : isNum v0 = true := by
      apply hnum2 g (hperm.mem_iff.mpr hg) v0
      rw [hv0]
      simp
    cases hq : v0 with
    | null => rw [hq] at hnv0; exact absurd hnv0 (by decide)
    | nan => rw [hq] at hnv0; exact absurd hnv0 (by decide)
    | num q =>
      refine ⟨q, geneKey_num ?_⟩
      rw [hv0, hq]
      simp
  have hselfM : ∀ g ∈ (g0 :: gs).map stripPValues,
      strictEq g.category g.category = true := by
    intro g hg
    rcases List.mem_map.mp hg with ⟨g2, hg2, rfl⟩
    exact hselfL g2 (hmemL g2 hg2)
  have hinjM : ∀ g1 ∈ (g0 :: gs).map stripPValues, ∀ g2 ∈ (g0 :: gs).map stripPValues,
      jsKey g1.category = jsKey g2.category → g1.category = g2.category := by
    intro g1 hg1 g2 hg2 hk
    rcases List.mem_map.mp hg1 with ⟨a, ha, rfl⟩
    rcases List.mem_map.mp hg2 with ⟨b, hb, rfl⟩
    exact hinj a (hmemL a ha) b (hmemL b hb) hk
  have hg2eq : (datasetOf (exportRows (datasetOf rows))).genes =
      (g0 :: gs).map stripPValues := by
    show sortedGeneData (geneDataOf (exportRows (datasetOf rows))) = _
    rw [hGDE, sortedGeneData_eq_noCollision _ hselfM hinjM, ← hcons,
      groupSort_map_fixed stripPValues (geneDataOf rows) (fun g => rfl)
        (fun g => rfl) hkeys, hcons]
  refine ⟨datasetOf (exportRows (datasetOf rows)), hok2, ?_, ?_, ?_, ?_, ?_⟩
  · show shortNamesOf (headersOf (exportRows (datasetOf rows))) =
      (datasetOf rows).comparisons
    rw [hH2]
    exact reimport_shortNames _ _ hne2 hdot2 htrim2 hp0
  · rw [hg2eq, show (datasetOf rows).genes = g0 :: gs from hgenes2]
    simp
  · rw [hg2eq, show (datasetOf rows).genes = g0 :: gs from hgenes2, List.map_map]
    rfl
  · rw [hg2eq, show (datasetOf rows).genes = g0 :: gs from hgenes2, List.map_map]
    rfl
  · rw [hg2eq, show (datasetOf rows).genes = g0 :: gs from hgenes2, List.map_map]
    rfl

def c4okrows : List Row :=
  [[("Gene ID", Cell.str "G1"), ("Category", Cell.str "B"),
    ("Log2FC (X)", Cell.num (mkRat 2 1)), ("P value (X)", Cell.num (mkRat 1 100))],
   [("Gene ID", Cell.str "G2"), ("Category", Cell.str "A"),
    ("Log2FC (X)", Cell.num (mkRat 1 1))]]

def c4wd : Dataset := orEmptyDataset (processExcelFile c4okrows)

/-- Witness for C4: the amended round-trip theorem applied to a concrete
two-gene, two-category, one-comparison dataset with plain numeric values. -/
theorem claim_c4_witness :
    (processExcelFile c4okrows = Except.ok c4wd) ∧
    (∃ d2, processExcelFile (exportRows c4wd) = Except.ok d2 ∧
      d2.comparisons = c4wd.comparisons ∧
      d2.genes.length = c4wd.genes.length ∧
      d2.genes.map (fun g => g.id) = c4wd.genes.map (fun g => g.id) ∧
      d2.genes.map (fun g => g.category) = c4wd.genes.map (fun g => g.category) ∧
      d2.genes.map (fun g => g.values) = c4wd.genes.map (fun g => g.values)) :=
  ⟨by decide, claim_c4_roundtrip_amended c4okrows c4wd (by decide) (by decide)
    (by decide) (by decide) (by decide)⟩

end GeneHeatmap
